import Mathlib

/-!
A verification development for the Goby front end exposed through the
`Ripper` introspection class (vm/ripper.go) and the `GoMap` native bridge
(vm/gomap.go).  Guest-language values are embedded shallowly; the façade
methods become total Lean functions returning `Except` of an error object,
matching the Go code's error-as-return-value design.
-/

namespace Goby

/-- A guest-language value as handled by the introspection façade:
integers, floats (kept abstract as their printed form, no float claim
computes with them), strings, booleans, null, arrays and hashes. -/
inductive Value where
  | vInt (n : Int)
  | vFloat (lit : String)
  | vString (s : String)
  | vBool (b : Bool)
  | vNull
  | vArray (elems : List Value)
  | vHash (pairs : List (String × Value))

/-- `Object#Class().Name` for each value kind, as used by the type-error
messages (vm/errors and vm/classes). -/
def Value.className : Value → String
  | .vInt _ => "Integer"
  | .vFloat _ => "Float"
  | .vString _ => "String"
  | .vBool _ => "Boolean"
  | .vNull => "Null"
  | .vArray _ => "Array"
  | .vHash _ => "Hash"

/-- An error object produced by `initErrorObject` /
`initUnsupportedMethodError`: an error class name, the source line it was
raised at, and the formatted message. -/
structure ErrObj where
  errClass : String
  line : Int
  message : String
  deriving DecidableEq, Repr

/-- Hash maps (Go `map[string]Object`) are modelled as association lists
with replace-on-set semantics; only key lookup is observable for the
claims below. -/
abbrev Hmap := List (String × Value)

/-- Set a key, replacing an existing binding (Go map assignment). -/
def hset (h : Hmap) (k : String) (v : Value) : Hmap :=
  match h with
  | [] => [(k, v)]
  | (k', v') :: rest => if k' = k then (k, v) :: rest else (k', v') :: hset rest k v

/-- Look a key up (Go map read). -/
def hget (h : Hmap) (k : String) : Option Value :=
  match h with
  | [] => none
  | (k', v') :: rest => if k' = k then some v' else hget rest k

theorem hget_hset_self (h : Hmap) (k : String) (v : Value) :
    hget (hset h k v) k = some v := by
  induction h with
  | nil => simp [hset, hget]
  | cons p rest ih =>
    by_cases hk : p.1 = k <;> simp [hset, hget, hk, ih]

theorem hget_hset_ne (h : Hmap) (k k' : String) (v : Value) (hne : k ≠ k') :
    hget (hset h k v) k' = hget h k' := by
  induction h with
  | nil => simp [hset, hget, hne]
  | cons p rest ih =>
    by_cases hk : p.1 = k
    · simp [hset, hget, hk, hne, Ne.symm hne]
    · by_cases hk' : p.1 = k' <;>
        simp [hset, hget, hk, hk', ih, Ne.symm hne]

end Goby

namespace Goby.Lexer

/-!
Modelled from the spec: the lexer (`compiler/lexer`, `compiler/token`) is
not part of src/; §4.1 and §3 of the spec describe it (single pass, skips
whitespace and comments, bounded lookahead for multi-character operators,
unknown characters become an "illegal" token, an `EOF` token ends the
stream).  Token kinds follow the `token.Type` strings observed through
`convertLex` and the ripper tests: keyword kinds are the upper-cased
keyword, literal kinds are `IDENT`, `CONSTANT`, `INT`, `FLOAT`, `STRING`,
`INSTANCE_VAR`, operators are their own symbol, and the terminal kind is
`EOF`.  Line numbering is 0-based, as fixed by the repository's own tests
(ripper_test.go: source beginning with a newline reports its first token
on line 1) and the doc examples in vm/ripper.go.
-/

/-- A lexical token: kind string, literal, 0-based source line. -/
structure Token where
  type : String
  literal : String
  line : Nat
  deriving DecidableEq, Repr

def lbraceChar : Char := Char.ofNat 123
def rbraceChar : Char := Char.ofNat 125
def dquoteChar : Char := Char.ofNat 34
def squoteChar : Char := Char.ofNat 39

def keywords : List String :=
  ["def", "true", "false", "nil", "if", "elsif", "else", "case", "when",
   "return", "self", "end", "while", "do", "yield", "next", "class",
   "module", "break", "get_block"]

def isLetterC (c : Char) : Bool := c.isAlpha || c = '_'

def isIdentC (c : Char) : Bool := isLetterC c || c.isDigit

/-- Longest prefix satisfying `p`, with the rest. -/
def spanP (p : Char → Bool) : List Char → List Char × List Char
  | [] => ([], [])
  | c :: cs =>
    if p c then
      let (pre, rest) := spanP p cs
      (c :: pre, rest)
    else ([], c :: cs)

theorem spanP_rest_length (p : Char → Bool) (cs : List Char) :
    (spanP p cs).2.length ≤ cs.length := by
  induction cs with
  | nil => simp [spanP]
  | cons c cs ih =>
    by_cases h : p c <;> simp [spanP, h]
    omega

mutual

/-- Skip whitespace and newlines, counting lines; a `#` starts a comment
running to the end of the line. -/
def skipWS : List Char → Nat → List Char × Nat
  | [], line => ([], line)
  | c :: cs, line =>
    if c = '\n' then skipWS cs (line + 1)
    else if c = ' ' || c = '\t' || c = '\r' then skipWS cs line
    else if c = '#' then skipComment cs line
    else (c :: cs, line)

/-- Skip to the end of a comment line. -/
def skipComment : List Char → Nat → List Char × Nat
  | [], line => ([], line)
  | c :: cs, line =>
    if c = '\n' then skipWS cs (line + 1)
    else skipComment cs line

end

mutual

theorem skipWS_length (cs : List Char) (line : Nat) :
    (skipWS cs line).1.length ≤ cs.length := by
  match cs with
  | [] => simp [skipWS]
  | c :: cs =>
    by_cases h1 : c = '\n'
    · have := skipWS_length cs (line + 1); simp [skipWS, h1]; omega
    · by_cases h2 : c = ' ' || c = '\t' || c = '\r'
      · have := skipWS_length cs line; simp [skipWS, h1, h2]; omega
      · by_cases h3 : c = '#'
        · have := skipComment_length cs line; simp [skipWS, h1, h2, h3]; omega
        · simp [skipWS, h1, h2, h3]

theorem skipComment_length (cs : List Char) (line : Nat) :
    (skipComment cs line).1.length ≤ cs.length := by
  match cs with
  | [] => simp [skipComment]
  | c :: cs =>
    by_cases h1 : c = '\n'
    · have := skipWS_length cs (line + 1); simp [skipComment, h1]; omega
    · have := skipComment_length cs line; simp [skipComment, h1]; omega

end

/-- ASCII upper-casing, character by character (the token kinds involved
are all ASCII). -/
def upperStr (w : String) : String := String.mk (w.data.map Char.toUpper)

/-- ASCII lower-casing, character by character. -/
def lowerStr (w : String) : String := String.mk (w.data.map Char.toLower)

/-- Upper-case a scanned word to obtain its keyword token kind
(`class` becomes `CLASS`, `get_block` becomes `GET_BLOCK`). -/
def keywordType (w : String) : String := upperStr w

/-- Scan an identifier, constant name or keyword starting at `c`. -/
def identToken (c : Char) (cs : List Char) (line : Nat) : Token × List Char :=
  let (pre, rest) := spanP isIdentC cs
  let w := String.mk (c :: pre)
  let ty := if w ∈ keywords then keywordType w
            else if c.isUpper then "CONSTANT" else "IDENT"
  (⟨ty, w, line⟩, rest)

/-- Scan an integer or float literal starting at digit `c`; a `.` makes a
float only when followed by another digit, so `10..20` stays an integer
and a range operator. -/
def numToken (c : Char) (cs : List Char) (line : Nat) : Token × List Char :=
  let (pre, rest) := spanP Char.isDigit cs
  match rest with
  | d :: e :: rest2 =>
    if d = '.' && e.isDigit then
      let (fr, rest3) := spanP Char.isDigit rest2
      (⟨"FLOAT", String.mk (c :: pre ++ '.' :: e :: fr), line⟩, rest3)
    else (⟨"INT", String.mk (c :: pre), line⟩, rest)
  | _ => (⟨"INT", String.mk (c :: pre), line⟩, rest)

/-- Body of a quoted string literal up to the closing quote `q`. -/
def strBody (q : Char) : List Char → List Char × List Char
  | [] => ([], [])
  | c :: cs =>
    if c = q then ([], cs)
    else
      let (b, r) := strBody q cs
      (c :: b, r)

theorem strBody_rest_length (q : Char) (cs : List Char) :
    (strBody q cs).2.length ≤ cs.length := by
  induction cs with
  | nil => simp [strBody]
  | cons c cs ih =>
    by_cases h : c = q <;> simp [strBody, h]
    omega

/-- Lookahead after `=`: `==`, `=~` or plain assignment. -/
def opEq (cs : List Char) : String × String × Nat :=
  match cs with
  | '=' :: _ => ("==", "==", 1)
  | '~' :: _ => ("=~", "=~", 1)
  | _ => ("=", "=", 0)

/-- Lookahead after `!`. -/
def opBang (cs : List Char) : String × String × Nat :=
  match cs with
  | '=' :: _ => ("!=", "!=", 1)
  | _ => ("!", "!", 0)

/-- Lookahead after `<`: `<=>`, `<=` or `<`. -/
def opLt (cs : List Char) : String × String × Nat :=
  match cs with
  | '=' :: '>' :: _ => ("<=>", "<=>", 2)
  | '=' :: _ => ("<=", "<=", 1)
  | _ => ("<", "<", 0)

/-- Lookahead after `>`. -/
def opGt (cs : List Char) : String × String × Nat :=
  match cs with
  | '=' :: _ => (">=", ">=", 1)
  | _ => (">", ">", 0)

/-- Lookahead after `+`. -/
def opPlus (cs : List Char) : String × String × Nat :=
  match cs with
  | '=' :: _ => ("+=", "+=", 1)
  | _ => ("+", "+", 0)

/-- Lookahead after `-`. -/
def opMinus (cs : List Char) : String × String × Nat :=
  match cs with
  | '=' :: _ => ("-=", "-=", 1)
  | _ => ("-", "-", 0)

/-- Lookahead after `*`. -/
def opStar (cs : List Char) : String × String × Nat :=
  match cs with
  | '*' :: _ => ("**", "**", 1)
  | _ => ("*", "*", 0)

/-- Lookahead after `&`; a lone `&` is not a Goby operator. -/
def opAmp (cs : List Char) : String × String × Nat :=
  match cs with
  | '&' :: _ => ("&&", "&&", 1)
  | _ => ("ILLEGAL", "&", 0)

/-- Lookahead after `|`: `||=`, `||` or a block-parameter bar. -/
def opBarC (cs : List Char) : String × String × Nat :=
  match cs with
  | '|' :: '=' :: _ => ("||=", "||=", 2)
  | '|' :: _ => ("||", "||", 1)
  | _ => ("|", "|", 0)

/-- Lookahead after `:`. -/
def opColon (cs : List Char) : String × String × Nat :=
  match cs with
  | ':' :: _ => ("::", "::", 1)
  | _ => (":", ":", 0)

/-- Lookahead after `.`: the range operator or a method-call dot. -/
def opDot (cs : List Char) : String × String × Nat :=
  match cs with
  | '.' :: _ => ("..", "..", 1)
  | _ => (".", ".", 0)

theorem opEq_ne_eof (cs : List Char) : (opEq cs).1 ≠ "EOF" := by
  intro h; unfold opEq at h; repeat' split at h; all_goals simp at h

theorem opBang_ne_eof (cs : List Char) : (opBang cs).1 ≠ "EOF" := by
  intro h; unfold opBang at h; repeat' split at h; all_goals simp at h

theorem opLt_ne_eof (cs : List Char) : (opLt cs).1 ≠ "EOF" := by
  intro h; unfold opLt at h; repeat' split at h; all_goals simp at h

theorem opGt_ne_eof (cs : List Char) : (opGt cs).1 ≠ "EOF" := by
  intro h; unfold opGt at h; repeat' split at h; all_goals simp at h

theorem opPlus_ne_eof (cs : List Char) : (opPlus cs).1 ≠ "EOF" := by
  intro h; unfold opPlus at h; repeat' split at h; all_goals simp at h

theorem opMinus_ne_eof (cs : List Char) : (opMinus cs).1 ≠ "EOF" := by
  intro h; unfold opMinus at h; repeat' split at h; all_goals simp at h

theorem opStar_ne_eof (cs : List Char) : (opStar cs).1 ≠ "EOF" := by
  intro h; unfold opStar at h; repeat' split at h; all_goals simp at h

theorem opAmp_ne_eof (cs : List Char) : (opAmp cs).1 ≠ "EOF" := by
  intro h; unfold opAmp at h; repeat' split at h; all_goals simp at h

theorem opBarC_ne_eof (cs : List Char) : (opBarC cs).1 ≠ "EOF" := by
  intro h; unfold opBarC at h; repeat' split at h; all_goals simp at h

theorem opColon_ne_eof (cs : List Char) : (opColon cs).1 ≠ "EOF" := by
  intro h; unfold opColon at h; repeat' split at h; all_goals simp at h

theorem opDot_ne_eof (cs : List Char) : (opDot cs).1 ≠ "EOF" := by
  intro h; unfold opDot at h; repeat' split at h; all_goals simp at h

/-- Operator and punctuation scanning with the bounded lookahead the spec
describes; returns kind, literal and the number of lookahead characters
consumed beyond `c`.  An unrecognized character yields an `ILLEGAL` token
carrying the offending literal. -/
def opTok (c : Char) (cs : List Char) : String × String × Nat :=
  if c = '=' then opEq cs
  else if c = '!' then opBang cs
  else if c = '<' then opLt cs
  else if c = '>' then opGt cs
  else if c = '+' then opPlus cs
  else if c = '-' then opMinus cs
  else if c = '*' then opStar cs
  else if c = '&' then opAmp cs
  else if c = '|' then opBarC cs
  else if c = ':' then opColon cs
  else if c = '.' then opDot cs
  else if c = '/' then ("/", "/", 0)
  else if c = '%' then ("%", "%", 0)
  else if c = '(' then ("(", "(", 0)
  else if c = ')' then (")", ")", 0)
  else if c = '[' then ("[", "[", 0)
  else if c = ']' then ("]", "]", 0)
  else if c = lbraceChar then ("\x7b", "\x7b", 0)
  else if c = rbraceChar then ("\x7d", "\x7d", 0)
  else if c = ',' then (",", ",", 0)
  else if c = ';' then (";", ";", 0)
  else ("ILLEGAL", String.mk [c], 0)

/-- Scan one token starting at the non-whitespace character `c`. -/
def readToken (c : Char) (cs : List Char) (line : Nat) : Token × List Char :=
  if isLetterC c then identToken c cs line
  else if c.isDigit then numToken c cs line
  else if c = dquoteChar ∨ c = squoteChar then
    let (b, r) := strBody c cs
    (⟨"STRING", String.mk b, line⟩, r)
  else if c = '@' then
    let (pre, rest) := spanP isIdentC cs
    (⟨"INSTANCE_VAR", String.mk ('@' :: pre), line⟩, rest)
  else
    let (ty, lit, k) := opTok c cs
    (⟨ty, lit, line⟩, cs.drop k)

theorem readToken_rest_length (c : Char) (cs : List Char) (line : Nat) :
    (readToken c cs line).2.length ≤ cs.length := by
  by_cases h1 : isLetterC c
  · simp only [readToken, identToken, h1, if_true]
    exact spanP_rest_length isIdentC cs
  · by_cases h2 : c.isDigit
    · rcases h : spanP Char.isDigit cs with ⟨pre, rest⟩
      have hrest : rest.length ≤ cs.length := by
        have := spanP_rest_length Char.isDigit cs; rw [h] at this; exact this
      rcases rest with _ | ⟨d, _ | ⟨e, rest2⟩⟩
      · simp [readToken, numToken, h1, h2, h]
      · simp [readToken, numToken, h1, h2, h]
        simpa using hrest
      · by_cases h3 : (d = '.' && e.isDigit) = true
        · have h4 := spanP_rest_length Char.isDigit rest2
          simp [readToken, numToken, h1, h2, h, h3]
          simp at hrest
          omega
        · simp [readToken, numToken, h1, h2, h, h3]
          simpa using hrest
    · by_cases h3 : c = dquoteChar ∨ c = squoteChar
      · simp only [readToken, h1, h2, h3, if_true, if_false, Bool.false_eq_true]
        exact strBody_rest_length c cs
      · by_cases h4 : c = '@'
        · simp only [readToken, h1, h2, h3, h4, if_true, if_false, Bool.false_eq_true]
          exact spanP_rest_length isIdentC cs
        · simp only [readToken, h1, h2, h3, h4, if_false, Bool.false_eq_true]
          simp

set_option maxHeartbeats 1000000 in
theorem readToken_type_ne_eof (c : Char) (cs : List Char) (line : Nat) :
    (readToken c cs line).1.type ≠ "EOF" := by
  by_cases h1 : isLetterC c
  · simp only [readToken, identToken, h1, if_true]
    by_cases hkw : String.mk (c :: (spanP isIdentC cs).1) ∈ keywords
    · simp only [hkw, if_true]
      have hmem := hkw
      simp only [keywords, List.mem_cons, List.not_mem_nil, or_false] at hmem
      rcases hmem with h | h | h | h | h | h | h | h | h | h | h | h | h |
        h | h | h | h | h | h | h <;> rw [h] <;> decide
    · simp only [hkw, if_false]
      split <;> simp
  · by_cases h2 : c.isDigit
    · simp only [readToken, numToken, h1, h2, if_true, if_false, Bool.false_eq_true]
      rcases spanP Char.isDigit cs with ⟨pre, rest⟩
      rcases rest with _ | ⟨d, _ | ⟨e, rest2⟩⟩ <;> simp only
      · simp
      · simp
      · split <;> simp
    · by_cases h3 : c = dquoteChar ∨ c = squoteChar
      · simp [readToken, h1, h2, h3]
      · by_cases h4 : c = '@'
        · subst h4
          simp [readToken, h1, h2, h3]
        · simp only [readToken, h1, h2, h3, h4, if_false, Bool.false_eq_true]
          show (opTok c cs).1 ≠ "EOF"
          intro h
          unfold opTok at h
          by_cases e1 : c = '='
          · rw [if_pos e1] at h; exact opEq_ne_eof cs h
          rw [if_neg e1] at h
          by_cases e2 : c = '!'
          · rw [if_pos e2] at h; exact opBang_ne_eof cs h
          rw [if_neg e2] at h
          by_cases e3 : c = '<'
          · rw [if_pos e3] at h; exact opLt_ne_eof cs h
          rw [if_neg e3] at h
          by_cases e4 : c = '>'
          · rw [if_pos e4] at h; exact opGt_ne_eof cs h
          rw [if_neg e4] at h
          by_cases e5 : c = '+'
          · rw [if_pos e5] at h; exact opPlus_ne_eof cs h
          rw [if_neg e5] at h
          by_cases e6 : c = '-'
          · rw [if_pos e6] at h; exact opMinus_ne_eof cs h
          rw [if_neg e6] at h
          by_cases e7 : c = '*'
          · rw [if_pos e7] at h; exact opStar_ne_eof cs h
          rw [if_neg e7] at h
          by_cases e8 : c = '&'
          · rw [if_pos e8] at h; exact opAmp_ne_eof cs h
          rw [if_neg e8] at h
          by_cases e9 : c = '|'
          · rw [if_pos e9] at h; exact opBarC_ne_eof cs h
          rw [if_neg e9] at h
          by_cases e10 : c = ':'
          · rw [if_pos e10] at h; exact opColon_ne_eof cs h
          rw [if_neg e10] at h
          by_cases e11 : c = '.'
          · rw [if_pos e11] at h; exact opDot_ne_eof cs h
          rw [if_neg e11] at h
          by_cases e12 : c = '/'
          · rw [if_pos e12] at h; simp at h
          rw [if_neg e12] at h
          by_cases e13 : c = '%'
          · rw [if_pos e13] at h; simp at h
          rw [if_neg e13] at h
          by_cases e14 : c = '('
          · rw [if_pos e14] at h; simp at h
          rw [if_neg e14] at h
          by_cases e15 : c = ')'
          · rw [if_pos e15] at h; simp at h
          rw [if_neg e15] at h
          by_cases e16 : c = '['
          · rw [if_pos e16] at h; simp at h
          rw [if_neg e16] at h
          by_cases e17 : c = ']'
          · rw [if_pos e17] at h; simp at h
          rw [if_neg e17] at h
          by_cases e18 : c = lbraceChar
          · rw [if_pos e18] at h; simp at h
          rw [if_neg e18] at h
          by_cases e19 : c = rbraceChar
          · rw [if_pos e19] at h; simp at h
          rw [if_neg e19] at h
          by_cases e20 : c = ','
          · rw [if_pos e20] at h; simp at h
          rw [if_neg e20] at h
          by_cases e21 : c = ';'
          · rw [if_pos e21] at h; simp at h
          rw [if_neg e21] at h
          simp at h

/-- The terminal token. -/
def eofTok (line : Nat) : Token := ⟨"EOF", "", line⟩

/-- The lexing driver: skip separators, emit one token, repeat.  Fuel is
the remaining input length plus one; each step consumes at least one
character, so the fuel never runs out (proved below), making the lexer a
total function over arbitrary byte sequences as the spec requires. -/
def lexFuel : Nat → List Char → Nat → List Token
  | 0, _, line => [eofTok line]
  | fuel + 1, cs, line =>
    match skipWS cs line with
    | ([], l) => [eofTok l]
    | (c :: rest, l) =>
      let (tok, rest2) := readToken c rest l
      tok :: lexFuel fuel rest2 l

/-- All tokens of an input, ending with the `EOF` token. -/
def lexAll (cs : List Char) (line : Nat) : List Token :=
  lexFuel (cs.length + 1) cs line

/-- `tokenize` of the spec: the full token stream of a source string,
starting at line 0. -/
def tokenize (s : String) : List Token := lexAll s.data 0

theorem lexFuel_fuel_irrel (f : Nat) :
    ∀ (g : Nat) (cs : List Char) (line : Nat), cs.length < f → cs.length < g →
      lexFuel f cs line = lexFuel g cs line := by
  induction f with
  | zero => intro g cs line hf; omega
  | succ f ih =>
    intro g cs line hf hg
    rcases g with _ | g
    · omega
    rcases hsk : skipWS cs line with ⟨rem, l⟩
    have hrem : rem.length ≤ cs.length := by
      have := skipWS_length cs line; rw [hsk] at this; exact this
    rcases rem with _ | ⟨c, rest⟩
    · simp [lexFuel, hsk]
    · rcases hrt : readToken c rest l with ⟨tok, rest2⟩
      have hr2 : rest2.length ≤ rest.length := by
        have := readToken_rest_length c rest l; rw [hrt] at this; exact this
      have hlen : rest2.length < f := by simp at hrem; omega
      have hlen' : rest2.length < g := by simp at hrem; omega
      simp only [lexFuel, hsk, hrt]
      rw [ih g rest2 l hlen hlen']

/-- Structure of the token stream: some non-EOF tokens followed by
exactly one trailing `EOF` token with an empty literal. -/
theorem lexFuel_split (f : Nat) :
    ∀ (cs : List Char) (line : Nat), ∃ pre l,
      lexFuel f cs line = pre ++ [eofTok l] ∧ ∀ t ∈ pre, t.type ≠ "EOF" := by
  induction f with
  | zero => intro cs line; exact ⟨[], line, rfl, by simp⟩
  | succ f ih =>
    intro cs line
    rcases hsk : skipWS cs line with ⟨rem, l⟩
    rcases rem with _ | ⟨c, rest⟩
    · exact ⟨[], l, by simp [lexFuel, hsk], by simp⟩
    · rcases hrt : readToken c rest l with ⟨tok, rest2⟩
      rcases ih rest2 l with ⟨pre, l', hpre, hne⟩
      refine ⟨tok :: pre, l', ?_, ?_⟩
      · simp [lexFuel, hsk, hrt, hpre]
      · intro t ht
        rcases List.mem_cons.mp ht with rfl | ht
        · have := readToken_type_ne_eof c rest l
          rw [hrt] at this
          simpa using this
        · exact hne t ht

theorem lexAll_split (cs : List Char) (line : Nat) : ∃ pre l,
    lexAll cs line = pre ++ [eofTok l] ∧ ∀ t ∈ pre, t.type ≠ "EOF" :=
  lexFuel_split (cs.length + 1) cs line

theorem tokenize_split (s : String) : ∃ pre l,
    tokenize s = pre ++ [eofTok l] ∧ ∀ t ∈ pre, t.type ≠ "EOF" :=
  lexAll_split s.data 0

end Goby.Lexer

namespace Goby

open Lexer (Token tokenize lowerStr)

/-- `convertLex` from vm/ripper.go: format a token kind for the wire, by
the explicit operator table there, lower-casing any other kind, and
prefixing `on_`. -/
def convertLex (t : String) : String :=
  let s :=
    if t = "*" then "asterisk"
    else if t = "&&" then "and"
    else if t = "=" then "assign"
    else if t = "!" then "bang"
    else if t = "|" then "bar"
    else if t = ":" then "colon"
    else if t = "," then "comma"
    else if t = "<=>" then "comp"
    else if t = "." then "dot"
    else if t = "==" then "eq"
    else if t = ">" then "gt"
    else if t = ">=" then "gte"
    else if t = "\x7b" then "lbrace"
    else if t = "[" then "lbracket"
    else if t = "(" then "lparen"
    else if t = "<" then "lt"
    else if t = "<=" then "lte"
    else if t = "=~" then "match"
    else if t = "-" then "minus"
    else if t = "-=" then "minuseq"
    else if t = "%" then "modulo"
    else if t = "!=" then "noteq"
    else if t = "||" then "or"
    else if t = "||=" then "oreq"
    else if t = "+" then "plus"
    else if t = "+=" then "pluseq"
    else if t = "**" then "pow"
    else if t = ".." then "range"
    else if t = "\x7d" then "rbrace"
    else if t = "]" then "rbracket"
    else if t = "::" then "resolutionoperator"
    else if t = ")" then "rparen"
    else if t = ";" then "semicolon"
    else if t = "/" then "slash"
    else lowerStr t
  "on_" ++ s

/-- The `ArgumentError` raised by the façade's arity guards
(`"Expect 1 argument. got=%d"`). -/
def arityErr (line : Int) (got : Nat) : ErrObj :=
  ⟨"ArgumentError", line, "Expect 1 argument. got=" ++ toString got⟩

/-- The `TypeError` raised by the façade's type guards
(`errors.WrongArgumentTypeFormat`). -/
def wrongArgTypeErr (line : Int) (expected actual : String) : ErrObj :=
  ⟨"TypeError", line, "Expect argument to be " ++ expected ++ ". got: " ++ actual⟩

/-- The `TypeError` raised when parsing fails inside `instruction` or
`parse`: `errors.InternalError` formatted with two stray arguments, as
shown by the doc comments in vm/ripper.go. -/
def invalidCodeErr (line : Int) : ErrObj :=
  ⟨"TypeError", line,
   "InternalError%!(EXTRA string=String, string=Invalid Goby code)"⟩

/-- The rows built by the `Ripper.lex` loop: one `[line, kind, literal]`
triple per token, stopping after the `EOF` token's row. -/
def lexRows : List Token → List Value
  | [] => []
  | t :: ts =>
    Value.vArray [.vInt (t.line : Int), .vString (convertLex t.type), .vString t.literal] ::
      (if t.type = "EOF" then [] else lexRows ts)

/-- `Ripper.lex`: argument guards, then the token-triple rows. -/
def ripperLex (sourceLine : Int) (args : List Value) : Except ErrObj Value :=
  match args with
  | [Value.vString s] => .ok (.vArray (lexRows (tokenize s)))
  | [a] => .error (wrongArgTypeErr sourceLine "String" a.className)
  | _ => .error (arityErr sourceLine args.length)

/-- The literals built by the `Ripper.token` loop: each token's literal,
with the terminal token rendered as `"EOF"`. -/
def tokenLits : List Token → List Value
  | [] => []
  | t :: ts =>
    if t.type = "EOF" then [Value.vString "EOF"]
    else Value.vString t.literal :: tokenLits ts

/-- `Ripper.token`: argument guards, then the literal list. -/
def ripperToken (sourceLine : Int) (args : List Value) : Except ErrObj Value :=
  match args with
  | [Value.vString s] => .ok (.vArray (tokenLits (tokenize s)))
  | [a] => .error (wrongArgTypeErr sourceLine "String" a.className)
  | _ => .error (arityErr sourceLine args.length)

/-- `Ripper.new`: unconditionally the unsupported-method error
(`initUnsupportedMethodError(sourceLine, "#new", receiver)`). -/
def ripperNew (sourceLine : Int) (receiverName : String) (_args : List Value) :
    Except ErrObj Value :=
  .error ⟨"UnsupportedMethodError", sourceLine,
          "Unsupported Method #new for " ++ receiverName⟩

end Goby

namespace Goby.GoMap

/-- Modelled from the spec: a native Go value stored in a `GoMap`
(`map[string]interface{}`); it is either already a guest object or a
native value the bridge must wrap.  The bridge itself
(`InitObjectFromGoType`) is outside src/; §6 of the spec only requires it
to round-trip text, integers, booleans and nil faithfully. -/
inductive GoVal where
  | obj (v : Value)
  | native (n : Int ⊕ String ⊕ Bool)
  | nativeNil

/-- Modelled from the spec: the native-value bridge
(`InitObjectFromGoType`) wrapping a native Go value as a guest value. -/
def initObjectFromGoType : (Int ⊕ String ⊕ Bool) ⊕ Unit → Value
  | .inl (.inl n) => .vInt n
  | .inl (.inr (.inl s)) => .vString s
  | .inl (.inr (.inr b)) => .vBool b
  | .inr () => .vNull

/-- What the `get` body returns for a stored entry: the stored object as
is when it already is one (`result.(Object)` succeeds), otherwise the
bridged value. -/
def bridge : GoVal → Value
  | .obj v => v
  | .native n => initObjectFromGoType (.inl n)
  | .nativeNil => initObjectFromGoType (.inr ())

/-- `GoMap#get` from vm/gomap.go: arity guard (`"Expect 1 argument.
got: %d"`), string-key guard, then map lookup — `NULL` when the key is
absent, the stored value (bridged if not already an object) when
present. -/
def goMapGet (sourceLine : Int) (data : List (String × GoVal))
    (args : List Value) : Except ErrObj Value :=
  match args with
  | [Value.vString k] =>
    match data.lookup k with
    | none => .ok .vNull
    | some gv => .ok (bridge gv)
  | [a] => .error (wrongArgTypeErr sourceLine "String" a.className)
  | _ => .error ⟨"ArgumentError", sourceLine,
                 "Expect 1 argument. got: " ++ toString args.length⟩

end Goby.GoMap

namespace Goby.Ast

/-!
Modelled from the spec: the AST (`compiler/ast`) is not part of src/; §3
of the spec fixes its closed variant set (Program, ClassStatement,
ModuleStatement, DefStatement, Assignment, MethodCall, BlockLiteral,
Identifier, ConstantRef with a qualification path, SelfExpression,
YieldExpression, InfixExpression, Literal), and §4.2/§9 fix that a call's
receiver is resolved at parse time (an implicit receiver is carried
explicitly).  Integer and float literals keep their scanned literal text;
the canonical printer reproduces it verbatim.
-/

mutual

inductive Expr where
  | intLit (lit : String)
  | floatLit (lit : String)
  | strLit (s : String)
  | boolLit (b : Bool)
  | nilLit
  | identE (name : String)
  | getBlockE
  | constRef (first : String) (rest : List String)
  | selfE
  | ivarE (name : String)
  | prefixE (op : String) (e : Expr)
  | infixE (op : String) (l : Expr) (r : Expr)
  | assignE (target : Expr) (value : Expr)
  | callE (recv : OptRecv) (name : String) (args : ExprList) (blk : OptBlock)
  | yieldE (args : ExprList)

/-- A method call's receiver: resolved-to-self when the source wrote
none, or an explicit expression. -/
inductive OptRecv where
  | implicitSelf
  | recv (e : Expr)

inductive ExprList where
  | nilE
  | consE (e : Expr) (rest : ExprList)

/-- An optional block argument: parameter names and body. -/
inductive OptBlock where
  | noneB
  | someB (params : List String) (body : StmtList)

inductive Stmt where
  | exprS (line : Nat) (e : Expr)
  | classS (line : Nat) (name : String) (sup : Option String) (body : StmtList)
  | moduleS (line : Nat) (name : String) (body : StmtList)
  | defS (line : Nat) (name : String) (selfRecv : Bool) (params : List String)
      (body : StmtList)

inductive StmtList where
  | nilS
  | consS (s : Stmt) (rest : StmtList)

end

/-- Comma-space joining for parameter and argument lists. -/
def joinComma : List String → String
  | [] => ""
  | [x] => x
  | x :: xs => x ++ ", " ++ joinComma xs

mutual

/-- Modelled from the spec: the canonical AST printer (`String()` on the
`compiler/ast` nodes, absent from src/).  §4.3 fixes the load-bearing
renderings, and the expected outputs in ripper_test.go pin them exactly:
class/module/def bodies as brace blocks, calls with an explicit receiver
(`self.` for implicit ones) and parenthesized arguments, blocks as
`do |params| ... end`, infix expressions fully parenthesized, qualified
constants as spaced `::`, and statements concatenated with no
separator. -/
def printExpr : Expr → String
  | .intLit l => l
  | .floatLit l => l
  | .strLit s => "\"" ++ s ++ "\""
  | .boolLit b => if b then "true" else "false"
  | .nilLit => "nil"
  | .identE n => n
  | .getBlockE => "get_block"
  | .constRef f r =>
    match r with
    | [] => f
    | _ => "(" ++ f ++ String.join (r.map (fun c => " :: " ++ c)) ++ ")"
  | .selfE => "self"
  | .ivarE n => n
  | .prefixE op e => "(" ++ op ++ printExpr e ++ ")"
  | .infixE op l r => "(" ++ printExpr l ++ " " ++ op ++ " " ++ printExpr r ++ ")"
  | .assignE t v => printExpr t ++ " = " ++ printExpr v
  | .callE recv m args blk =>
    printRecv recv ++ "." ++ m ++ "(" ++ joinComma (printArgs args) ++ ")" ++
      printBlock blk
  | .yieldE args => "yield(" ++ joinComma (printArgs args) ++ ")"

def printRecv : OptRecv → String
  | .implicitSelf => "self"
  | .recv e => printExpr e

def printArgs : ExprList → List String
  | .nilE => []
  | .consE e rest => printExpr e :: printArgs rest

def printBlock : OptBlock → String
  | .noneB => ""
  | .someB ps body =>
    " do" ++ (match ps with
              | [] => ""
              | _ => " |" ++ joinComma ps ++ "|") ++
      "\n" ++ printStmts body ++ "\nend"

def printStmt : Stmt → String
  | .exprS _ e => printExpr e
  | .classS _ n _ body => "class " ++ n ++ " \x7b\n" ++ printStmts body ++ "\n\x7d"
  | .moduleS _ n body => "module " ++ n ++ " \x7b\n" ++ printStmts body ++ "\n\x7d"
  | .defS _ n _ ps body =>
    "def " ++ n ++ "(" ++ joinComma ps ++ ") \x7b\n" ++ printStmts body ++ "\n\x7d"

def printStmts : StmtList → String
  | .nilS => ""
  | .consS s rest => printStmt s ++ printStmts rest

end

/-- `Program#String()`: the canonical rendering of a whole program. -/
def printProgram (p : StmtList) : String := printStmts p

end Goby.Ast

namespace Goby.Parser

open Goby.Lexer (Token tokenize)
open Goby.Ast

/-!
Modelled from the spec: the parser (`compiler/parser`) is not part of
src/; §4.2 fixes its design — statement dispatch on the leading token
(class with optional superclass, module, def with an optional
`self.`-singleton receiver and optional parenthesized parameters, and
expression statements), precedence climbing for expressions (assignment
lowest and right-associative, then boolean, equality, comparison, sum,
product, power right-associative, then unary, with call dispatch binding
tightest), implicit-receiver calls resolved during parsing, `::` chains
collected into one constant reference, and blocks attached to the
enclosing call.  §4.2's failure policy: the first structural mismatch
returns an error carrying the offending line and token, and §5 asks for
recursion-depth risk to be converted into a diagnosed depth cap — the
`fuel` parameter below, sized so that it cannot run out on any input
(every nesting level consumes at least one token).
-/

/-- A parse failure: offending line, token literal, and message. -/
structure PErr where
  line : Nat
  lit : String
  msg : String

abbrev Toks := List Token

abbrev PRes (α : Type) := Except PErr (α × Toks)

/-- The token under the cursor (the stream always ends with `EOF`). -/
def peekT : Toks → Token
  | [] => Lexer.eofTok 0
  | t :: _ => t

/-- The token after the cursor. -/
def peek2T : Toks → Token
  | [] => Lexer.eofTok 0
  | [_] => Lexer.eofTok 0
  | _ :: t :: _ => t

/-- Consume one token of the expected kind or fail. -/
def expectTok (ty : String) (ts : Toks) : PRes Token :=
  match ts with
  | t :: rest =>
    if t.type = ty then .ok (t, rest)
    else .error ⟨t.line, t.literal, "unexpected token, expected " ++ ty⟩
  | [] => .error ⟨0, "", "unexpected end of input"⟩

/-- Skip statement-separating semicolons. -/
def skipSemis : Toks → Toks
  | t :: rest => if t.type = ";" then skipSemis rest else t :: rest
  | [] => []

/-- Operator precedence, §4.2: assignment 1, boolean 2, equality 3,
comparison 4, additive 5, multiplicative 6, power 7, call dispatch 10;
0 marks a non-operator. -/
def precOf (ty : String) : Nat :=
  if ty = "=" then 1
  else if ty = "||" ∨ ty = "&&" then 2
  else if ty = "==" ∨ ty = "!=" then 3
  else if ty = "<" ∨ ty = "<=" ∨ ty = ">" ∨ ty = ">=" ∨ ty = "<=>" then 4
  else if ty = "+" ∨ ty = "-" then 5
  else if ty = "*" ∨ ty = "/" ∨ ty = "%" then 6
  else if ty = "**" then 7
  else if ty = "." then 10
  else 0

/-- Right-associative operators (§4.2: assignment and power). -/
def isRightAssoc (ty : String) : Bool := ty = "=" || ty = "**"

/-- Token kinds that can begin an expression, used to recognize a bare
(parenthesis-free) argument list after an identifier on the same line. -/
def startsExpr (ty : String) : Bool :=
  ty = "INT" || ty = "FLOAT" || ty = "STRING" || ty = "IDENT" ||
  ty = "CONSTANT" || ty = "SELF" || ty = "TRUE" || ty = "FALSE" ||
  ty = "NIL" || ty = "GET_BLOCK" || ty = "INSTANCE_VAR" || ty = "YIELD"

/-- Collect `, ident`* for a parameter list. -/
def moreParams (acc : List String) : Toks → Except PErr (List String × Toks)
  | [] => .ok (acc, [])
  | c :: rest =>
    if c.type = "," then
      match rest with
      | [] => .error ⟨0, "", "unexpected end of input"⟩
      | p :: rest2 =>
        if p.type = "IDENT" then moreParams (acc ++ [p.literal]) rest2
        else .error ⟨p.line, p.literal, "unexpected token, expected IDENT"⟩
    else .ok (acc, c :: rest)

/-- Parse `ident (, ident)* |` block parameters after the opening bar. -/
def parseBlockParams (ts : Toks) : PRes (List String) :=
  match expectTok "IDENT" ts with
  | .error e => .error e
  | .ok (p, ts1) =>
    match moreParams [p.literal] ts1 with
    | .error e => .error e
    | .ok (ps, ts2) =>
      match expectTok "|" ts2 with
      | .error e => .error e
      | .ok (_, ts3) => .ok (ps, ts3)

/-- Parse `ident (, ident)* )` method parameters after the opening
parenthesis. -/
def parseParamList (ts : Toks) : PRes (List String) :=
  if (peekT ts).type = ")" then .ok ([], ts.drop 1)
  else
    match expectTok "IDENT" ts with
    | .error e => .error e
    | .ok (p, ts1) =>
      match moreParams [p.literal] ts1 with
      | .error e => .error e
      | .ok (ps, ts2) =>
        match expectTok ")" ts2 with
        | .error e => .error e
        | .ok (_, ts3) => .ok (ps, ts3)

mutual

/-- Parse statements until `EOF` or an `end` keyword (left for the
caller to consume). -/
def parseStmts (fuel : Nat) (ts : Toks) : PRes StmtList :=
  match fuel with
  | 0 => .error ⟨(peekT ts).line, (peekT ts).literal, "nesting too deep"⟩
  | fuel + 1 =>
    let ts := skipSemis ts
    let t := peekT ts
    if t.type = "EOF" ∨ t.type = "END" then .ok (.nilS, ts)
    else
      match parseStmt fuel ts with
      | .error e => .error e
      | .ok (s, ts') =>
        match parseStmts fuel ts' with
        | .error e => .error e
        | .ok (rest, ts'') => .ok (.consS s rest, ts'')

/-- Parse one statement, dispatching on the leading token kind. -/
def parseStmt (fuel : Nat) (ts : Toks) : PRes Stmt :=
  match fuel with
  | 0 => .error ⟨(peekT ts).line, (peekT ts).literal, "nesting too deep"⟩
  | fuel + 1 =>
    match ts with
    | [] => .error ⟨0, "", "unexpected end of input"⟩
    | t :: rest =>
      if t.type = "CLASS" then
        match expectTok "CONSTANT" rest with
        | .error e => .error e
        | .ok (nameTok, ts1) =>
          match
            ((if (peekT ts1).type = "<" then
                match expectTok "CONSTANT" (ts1.drop 1) with
                | .error e => .error e
                | .ok (supTok, ts2) => .ok (some supTok.literal, ts2)
              else .ok (none, ts1)) : PRes (Option String)) with
          | .error e => .error e
          | .ok (sup, ts2) =>
            match parseStmts fuel ts2 with
            | .error e => .error e
            | .ok (body, ts3) =>
              match expectTok "END" ts3 with
              | .error e => .error e
              | .ok (_, ts4) => .ok (.classS t.line nameTok.literal sup body, ts4)
      else if t.type = "MODULE" then
        match expectTok "CONSTANT" rest with
        | .error e => .error e
        | .ok (nameTok, ts1) =>
          match parseStmts fuel ts1 with
          | .error e => .error e
          | .ok (body, ts2) =>
            match expectTok "END" ts2 with
            | .error e => .error e
            | .ok (_, ts3) => .ok (.moduleS t.line nameTok.literal body, ts3)
      else if t.type = "DEF" then
        match
          ((if (peekT rest).type = "SELF" then
              match expectTok "." (rest.drop 1) with
              | .error e => .error e
              | .ok (_, ts1) =>
                match expectTok "IDENT" ts1 with
                | .error e => .error e
                | .ok (nameTok, ts2) => .ok ((true, nameTok.literal), ts2)
            else
              match expectTok "IDENT" rest with
              | .error e => .error e
              | .ok (nameTok, ts1) => .ok ((false, nameTok.literal), ts1)) :
            PRes (Bool × String)) with
        | .error e => .error e
        | .ok ((selfRecv, name), ts1) =>
          match
            ((if (peekT ts1).type = "(" then parseParamList (ts1.drop 1)
              else .ok ([], ts1)) : PRes (List String)) with
          | .error e => .error e
          | .ok (ps, ts2) =>
            match parseStmts fuel ts2 with
            | .error e => .error e
            | .ok (body, ts3) =>
              match expectTok "END" ts3 with
              | .error e => .error e
              | .ok (_, ts4) => .ok (.defS t.line name selfRecv ps body, ts4)
      else
        match parseExpr fuel 0 ts with
        | .error e => .error e
        | .ok (e, ts') => .ok (.exprS t.line e, ts')

/-- Parse an expression by precedence climbing. -/
def parseExpr (fuel : Nat) (prec : Nat) (ts : Toks) : PRes Expr :=
  match fuel with
  | 0 => .error ⟨(peekT ts).line, (peekT ts).literal, "nesting too deep"⟩
  | fuel + 1 =>
    match parsePrefix fuel ts with
    | .error e => .error e
    | .ok (left, ts') => parseInfix fuel prec left ts'

/-- The infix loop: extend `left` while the next operator binds more
tightly than `prec`. -/
def parseInfix (fuel : Nat) (prec : Nat) (left : Expr) (ts : Toks) : PRes Expr :=
  match fuel with
  | 0 => .error ⟨(peekT ts).line, (peekT ts).literal, "nesting too deep"⟩
  | fuel + 1 =>
    let t := peekT ts
    let p := precOf t.type
    if p = 0 ∨ p ≤ prec then .ok (left, ts)
    else if t.type = "." then
      match expectTok "IDENT" (ts.drop 1) with
      | .error e => .error e
      | .ok (mTok, ts1) =>
        match
          (if (peekT ts1).type = "(" ∧ (peekT ts1).line = mTok.line then
             parseCallArgs fuel (ts1.drop 1)
           else (.ok (.nilE, ts1) : PRes ExprList)) with
        | .error e => .error e
        | .ok (args, ts2) =>
          match parseBlockOpt fuel ts2 with
          | .error e => .error e
          | .ok (blk, ts3) =>
            parseInfix fuel prec (.callE (.recv left) mTok.literal args blk) ts3
    else
      let rhsPrec := if isRightAssoc t.type then p - 1 else p
      match parseExpr fuel rhsPrec (ts.drop 1) with
      | .error e => .error e
      | .ok (rhs, ts1) =>
        let combined :=
          if t.type = "=" then Expr.assignE left rhs
          else Expr.infixE t.literal left rhs
        parseInfix fuel prec combined ts1

/-- Parse a prefix position: literals, identifiers (possibly starting an
implicit-receiver call), constants with `::` chains, `self`, `yield`,
grouping parentheses, and unary `!`/`-`. -/
def parsePrefix (fuel : Nat) (ts : Toks) : PRes Expr :=
  match fuel with
  | 0 => .error ⟨(peekT ts).line, (peekT ts).literal, "nesting too deep"⟩
  | fuel + 1 =>
    match ts with
    | [] => .error ⟨0, "", "unexpected end of input"⟩
    | t :: rest =>
      if t.type = "INT" then .ok (.intLit t.literal, rest)
      else if t.type = "FLOAT" then .ok (.floatLit t.literal, rest)
      else if t.type = "STRING" then .ok (.strLit t.literal, rest)
      else if t.type = "TRUE" then .ok (.boolLit true, rest)
      else if t.type = "FALSE" then .ok (.boolLit false, rest)
      else if t.type = "NIL" then .ok (.nilLit, rest)
      else if t.type = "SELF" then .ok (.selfE, rest)
      else if t.type = "GET_BLOCK" then .ok (.getBlockE, rest)
      else if t.type = "INSTANCE_VAR" then .ok (.ivarE t.literal, rest)
      else if t.type = "IDENT" then
        let nx := peekT rest
        if nx.type = "(" ∧ nx.line = t.line then
          match parseCallArgs fuel (rest.drop 1) with
          | .error e => .error e
          | .ok (args, ts1) =>
            match parseBlockOpt fuel ts1 with
            | .error e => .error e
            | .ok (blk, ts2) =>
              .ok (.callE .implicitSelf t.literal args blk, ts2)
        else if nx.type = "DO" ∧ nx.line = t.line then
          match parseBlockOpt fuel rest with
          | .error e => .error e
          | .ok (blk, ts1) => .ok (.callE .implicitSelf t.literal .nilE blk, ts1)
        else if startsExpr nx.type ∧ nx.line = t.line then
          match parseBareArgs fuel rest with
          | .error e => .error e
          | .ok (args, ts1) =>
            match parseBlockOpt fuel ts1 with
            | .error e => .error e
            | .ok (blk, ts2) =>
              .ok (.callE .implicitSelf t.literal args blk, ts2)
        else .ok (.identE t.literal, rest)
      else if t.type = "CONSTANT" then
        match parseConstPath fuel [] rest with
        | .error e => .error e
        | .ok (path, ts1) => .ok (.constRef t.literal path.reverse, ts1)
      else if t.type = "YIELD" then
        if (peekT rest).type = "(" ∧ (peekT rest).line = t.line then
          match parseCallArgs fuel (rest.drop 1) with
          | .error e => .error e
          | .ok (args, ts1) => .ok (.yieldE args, ts1)
        else .ok (.yieldE .nilE, rest)
      else if t.type = "(" then
        match parseExpr fuel 0 rest with
        | .error e => .error e
        | .ok (e, ts1) =>
          match expectTok ")" ts1 with
          | .error e => .error e
          | .ok (_, ts2) => .ok (e, ts2)
      else if t.type = "!" ∨ t.type = "-" then
        match parseExpr fuel 8 rest with
        | .error e => .error e
        | .ok (e, ts1) => .ok (.prefixE t.literal e, ts1)
      else .error ⟨t.line, t.literal, "unexpected token"⟩

/-- Collect the tail of a `::`-qualified constant chain (reversed). -/
def parseConstPath (fuel : Nat) (acc : List String) (ts : Toks) :
    Except PErr (List String × Toks) :=
  match fuel with
  | 0 => .error ⟨(peekT ts).line, (peekT ts).literal, "nesting too deep"⟩
  | fuel + 1 =>
    if (peekT ts).type = "::" then
      match expectTok "CONSTANT" (ts.drop 1) with
      | .error e => .error e
      | .ok (cTok, ts1) => parseConstPath fuel (cTok.literal :: acc) ts1
    else .ok (acc, ts)

/-- Parse a parenthesized argument list after its `(` was consumed. -/
def parseCallArgs (fuel : Nat) (ts : Toks) : PRes ExprList :=
  match fuel with
  | 0 => .error ⟨(peekT ts).line, (peekT ts).literal, "nesting too deep"⟩
  | fuel + 1 =>
    if (peekT ts).type = ")" then .ok (.nilE, ts.drop 1)
    else
      match parseExpr fuel 0 ts with
      | .error e => .error e
      | .ok (e, ts1) =>
        match parseMoreArgs fuel ts1 with
        | .error e => .error e
        | .ok (rest, ts2) =>
          match expectTok ")" ts2 with
          | .error e => .error e
          | .ok (_, ts3) => .ok (.consE e rest, ts3)

/-- Parse `, expr`* inside an argument list. -/
def parseMoreArgs (fuel : Nat) (ts : Toks) : PRes ExprList :=
  match fuel with
  | 0 => .error ⟨(peekT ts).line, (peekT ts).literal, "nesting too deep"⟩
  | fuel + 1 =>
    if (peekT ts).type = "," then
      match parseExpr fuel 0 (ts.drop 1) with
      | .error e => .error e
      | .ok (e, ts1) =>
        match parseMoreArgs fuel ts1 with
        | .error e => .error e
        | .ok (rest, ts2) => .ok (.consE e rest, ts2)
    else .ok (.nilE, ts)

/-- Parse a bare (parenthesis-free) argument list after an identifier. -/
def parseBareArgs (fuel : Nat) (ts : Toks) : PRes ExprList :=
  match fuel with
  | 0 => .error ⟨(peekT ts).line, (peekT ts).literal, "nesting too deep"⟩
  | fuel + 1 =>
    match parseExpr fuel 1 ts with
    | .error e => .error e
    | .ok (e, ts1) =>
      if (peekT ts1).type = "," then
        match parseBareArgs fuel (ts1.drop 1) with
        | .error e => .error e
        | .ok (rest, ts2) => .ok (.consE e rest, ts2)
      else .ok (.consE e .nilE, ts1)

/-- Parse an optional block argument: `do |params| body end` or
`{ |params| body }`. -/
def parseBlockOpt (fuel : Nat) (ts : Toks) : PRes OptBlock :=
  match fuel with
  | 0 => .error ⟨(peekT ts).line, (peekT ts).literal, "nesting too deep"⟩
  | fuel + 1 =>
    if (peekT ts).type = "DO" then
      match
        (if (peekT (ts.drop 1)).type = "|" then parseBlockParams (ts.drop 2)
         else (.ok ([], ts.drop 1) : PRes (List String))) with
      | .error e => .error e
      | .ok (ps, ts1) =>
        match parseStmts fuel ts1 with
        | .error e => .error e
        | .ok (body, ts2) =>
          match expectTok "END" ts2 with
          | .error e => .error e
          | .ok (_, ts3) => .ok (.someB ps body, ts3)
    else if (peekT ts).type = "\x7b" then
      match
        (if (peekT (ts.drop 1)).type = "|" then parseBlockParams (ts.drop 2)
         else (.ok ([], ts.drop 1) : PRes (List String))) with
      | .error e => .error e
      | .ok (ps, ts1) =>
        match parseStmts fuel ts1 with
        | .error e => .error e
        | .ok (body, ts2) =>
          match expectTok "\x7d" ts2 with
          | .error e => .error e
          | .ok (_, ts3) => .ok (.someB ps body, ts3)
    else .ok (.noneB, ts)

end

/-- `parseProgram`: all statements, then the terminal `EOF` token. -/
def parseProgramT (fuel : Nat) (ts : Toks) : Except PErr StmtList :=
  match parseStmts fuel ts with
  | .error e => .error e
  | .ok (stmts, ts') =>
    match expectTok "EOF" ts' with
    | .error e => .error e
    | .ok _ => .ok stmts

/-- Parse a source string: lex it, then run the parser with fuel that
cannot be exhausted on this input. -/
def parseRip (s : String) : Except PErr StmtList :=
  let ts := tokenize s
  parseProgramT (8 * ts.length + 64) ts

end Goby.Parser

namespace Goby.Bytecode

/-!
Modelled from the spec: the bytecode layer (`compiler/bytecode`) is not
part of src/.  §3 fixes the records: an ArgSet is a pair of parallel
name/kind arrays (embedded here as one list of pairs, which carries the
equal-length invariant §3 states), an Instruction has an action, params,
a bytecode line (its index in its set), a source line, an optional
resolved anchor, and — read by `convertToTuple` in vm/ripper.go — an
optional per-instruction ArgSet; an Instruction Set has a name, a kind
(`Program`, `Def`, `Block`) and its instructions.
-/

/-- An ArgSet: parallel `names`/`types` arrays, kept as a list of
name–kind pairs. -/
abbrev ArgSetM := List (String × Int)

/-- `ArgSet#Names()`. -/
def argNames (a : ArgSetM) : List String := a.map Prod.fst

/-- `ArgSet#Types()`. -/
def argTypesOf (a : ArgSetM) : List Int := a.map Prod.snd

/-- A finalized bytecode instruction. -/
structure Instr where
  action : String
  params : List String
  line : Nat
  sourceLine : Nat
  anchor : Option Nat
  argSet : Option ArgSetM

/-- `Instruction#AnchorLine()`: the resolved anchor, or an error when
the instruction has none. -/
def anchorLine (i : Instr) : Except String Nat :=
  match i.anchor with
  | some a => .ok a
  | none => .error "anchor line is nil"

/-- The Go call site `anchor, _ := ins.AnchorLine()` discards the error,
leaving the integer zero value. -/
def anchorOrZero (i : Instr) : Int :=
  match anchorLine i with
  | .ok a => (a : Int)
  | .error _ => 0

/-- An Instruction Set: one per lexical scope. -/
structure ISet where
  name : String
  isType : String
  argTypes : Option ArgSetM
  instructions : List Instr

end Goby.Bytecode

namespace Goby.Compiler

open Goby.Ast
open Goby.Bytecode

/-!
Modelled from the spec: the compiler (`compiler` /
`compiler.CompileToInstructions`) is not part of src/.  §4.4 fixes its
shape: one Instruction Set per lexical scope that needs its own
instruction sequence — the top-level program, each method definition and
each block literal; an ArgSet only on scopes that accept parameters
(method definitions and blocks), absent for the top-level program;
instructions emitted in evaluation order with `source_line` from the
originating AST node and the bytecode line being the instruction's index
in its set; and compilation failing only by propagating a parse failure
(the lowering itself is total).
-/

/-- A not-yet-numbered instruction. -/
structure PInstr where
  action : String
  params : List String
  sourceLine : Nat
  anchor : Option Nat
  argSet : Option ArgSetM

/-- Parameter names become an ArgSet of normal-kind (tag 0) entries. -/
def mkArgSetM (ps : List String) : ArgSetM := ps.map (fun p => (p, 0))

/-- Number the instructions of a scope with their index. -/
def numberFrom (i : Nat) : List PInstr → List Instr
  | [] => []
  | p :: ps => ⟨p.action, p.params, i, p.sourceLine, p.anchor, p.argSet⟩ ::
      numberFrom (i + 1) ps

/-- Close a scope into an Instruction Set, appending its `leave` and
assigning bytecode lines. -/
def finalizeSet (name isType : String) (ats : Option ArgSetM)
    (is : List PInstr) (line : Nat) : ISet :=
  ⟨name, isType, ats, numberFrom 0 (is ++ [⟨"leave", [], line, none, none⟩])⟩

/-- Argument counts in `send` params, as decimal strings. -/
def argcStr (n : Nat) : String :=
  if n = 0 then "0" else if n = 1 then "1" else if n = 2 then "2"
  else if n = 3 then "3" else if n = 4 then "4" else if n = 5 then "5"
  else if n = 6 then "6" else if n = 7 then "7" else if n = 8 then "8"
  else if n = 9 then "9" else "many"

mutual

/-- Lower a statement list; returns the instructions for the current
scope and the Instruction Sets of nested scopes. -/
def compileStmts : StmtList → List PInstr × List ISet
  | .nilS => ([], [])
  | .consS s rest =>
    let (i1, s1) := compileStmt s
    let (i2, s2) := compileStmts rest
    (i1 ++ i2, s1 ++ s2)

def compileStmt : Stmt → List PInstr × List ISet
  | .exprS line e =>
    let (ie, se) := compileExpr line e
    (ie ++ [⟨"pop", [], line, none, none⟩], se)
  | .classS line name sup body =>
    let (ib, sb) := compileStmts body
    (⟨"putself", [], line, none, none⟩ ::
       ⟨"def_class", ("class:" ++ name) ::
          (match sup with | some s => [s] | none => []), line, none, none⟩ :: ib,
     sb)
  | .moduleS line name body =>
    let (ib, sb) := compileStmts body
    (⟨"putself", [], line, none, none⟩ ::
       ⟨"def_class", ["module:" ++ name], line, none, none⟩ :: ib, sb)
  | .defS line name selfRecv ps body =>
    let (ib, sb) := compileStmts body
    ([⟨"putself", [], line, none, none⟩,
      ⟨if selfRecv then "def_singleton_method" else "def_method", [name],
       line, none, none⟩],
     sb ++ [finalizeSet name "Def" (some (mkArgSetM ps)) ib line])

def compileExpr (line : Nat) : Expr → List PInstr × List ISet
  | .intLit l => ([⟨"putobject", [l], line, none, none⟩], [])
  | .floatLit l => ([⟨"putobject", [l], line, none, none⟩], [])
  | .strLit s => ([⟨"putstring", [s], line, none, none⟩], [])
  | .boolLit b => ([⟨"putobject", [if b then "true" else "false"], line, none, none⟩], [])
  | .nilLit => ([⟨"putnil", [], line, none, none⟩], [])
  | .identE n => ([⟨"getlocal", [n], line, none, none⟩], [])
  | .getBlockE => ([⟨"getblock", [], line, none, none⟩], [])
  | .constRef f r => ([⟨"getconstant", f :: r, line, none, none⟩], [])
  | .selfE => ([⟨"putself", [], line, none, none⟩], [])
  | .ivarE n => ([⟨"getinstancevariable", [n], line, none, none⟩], [])
  | .prefixE op e =>
    let (ie, se) := compileExpr line e
    (ie ++ [⟨"send", [op, "0"], line, none, none⟩], se)
  | .infixE op l r =>
    let (il, sl) := compileExpr line l
    let (ir, sr) := compileExpr line r
    (il ++ ir ++ [⟨"send", [op, "1"], line, none, none⟩], sl ++ sr)
  | .assignE t v =>
    let (iv, sv) := compileExpr line v
    (iv ++ [⟨"setlocal", [match t with
                          | .identE n => n
                          | .ivarE n => n
                          | _ => "?"], line, none, none⟩], sv)
  | .callE recv m args blk =>
    let (ir, sr) := compileRecv line recv
    let (ia, rest) := compileArgs line args
    let (sa, n) := rest
    let (bps, bsets) := compileBlock line blk
    (ir ++ ia ++ [⟨"send", [m, argcStr n] ++ bps, line, none, none⟩],
     sr ++ sa ++ bsets)
  | .yieldE args =>
    let (ia, rest) := compileArgs line args
    let (sa, n) := rest
    (ia ++ [⟨"invokeblock", [argcStr n], line, none, none⟩], sa)

def compileRecv (line : Nat) : OptRecv → List PInstr × List ISet
  | .implicitSelf => ([⟨"putself", [], line, none, none⟩], [])
  | .recv e => compileExpr line e

def compileArgs (line : Nat) : ExprList → List PInstr × List ISet × Nat
  | .nilE => ([], [], 0)
  | .consE e rest =>
    let (i1, s1) := compileExpr line e
    let (i2, rest') := compileArgs line rest
    let (s2, n) := rest'
    (i1 ++ i2, s1 ++ s2, n + 1)

def compileBlock (line : Nat) : OptBlock → List String × List ISet
  | .noneB => ([], [])
  | .someB ps body =>
    let (ib, sb) := compileStmts body
    (["block"], sb ++ [finalizeSet "Block" "Block" (some (mkArgSetM ps)) ib line])

end

/-- Lower a whole parsed program: the top-level `Program` set (no
ArgSet, §4.4) followed by the sets of nested scopes. -/
def compileProgram (prog : StmtList) : List ISet :=
  let (is, sets) := compileStmts prog
  finalizeSet "ProgramStart" "Program" none is 0 :: sets

/-- Modelled from the spec: `compiler.CompileToInstructions` (not in
src/) parses the source and lowers the AST; per §4.4/§7 its only failure
mode is a propagated parse error — the lowering itself never fails. -/
def compileToInstructions (s : String) : Except Parser.PErr (List ISet) :=
  match Parser.parseRip s with
  | .error e => .error e
  | .ok prog => .ok (compileProgram prog)

end Goby.Compiler

namespace Goby

open Goby.Bytecode

/-- `getArgNameType` from vm/ripper.go: serialize an ArgSet as a hash
with a `names` string array and a `types` integer array. -/
def getArgNameType (a : ArgSetM) : Value :=
  let h := hset [] "names" (.vArray ((argNames a).map Value.vString))
  let h := hset h "types" (.vArray ((argTypesOf a).map Value.vInt))
  .vHash h

/-- The per-instruction hash built inside `convertToTuple`: `action`,
`line`, `source_line`, `anchor` (always set, from the discarded-error
`AnchorLine()` call), and `params`. -/
def serializeIns (ins : Instr) : Hmap :=
  let h := hset [] "action" (.vString ins.action)
  let h := hset h "line" (.vInt (ins.line : Int))
  let h := hset h "source_line" (.vInt (ins.sourceLine : Int))
  let h := hset h "anchor" (.vInt (anchorOrZero ins))
  hset h "params" (.vArray (ins.params.map Value.vString))

/-- The instruction loop of `convertToTuple`: it accumulates the array
of instruction hashes, and — writing to the set-level map `hInsts`, as
the Go code does — an `arg_set` entry for every instruction that carries
one (later writes overwrite earlier ones). -/
def insLoop (acc : List Value) (h : Hmap) : List Instr → List Value × Hmap
  | [] => (acc, h)
  | ins :: rest =>
    let h' := match ins.argSet with
              | some a => hset h "arg_set" (getArgNameType a)
              | none => h
    insLoop (acc ++ [.vHash (serializeIns ins)]) h' rest

/-- The set-level map before the instruction loop: `name`, `type`, and
`arg_types` when the set has an ArgSet (`insts.ArgTypes() != nil`). -/
def setHeader (s : ISet) : Hmap :=
  let h := hset [] "name" (.vString s.name)
  let h := hset h "type" (.vString s.isType)
  match s.argTypes with
  | some a => hset h "arg_types" (getArgNameType a)
  | none => h

/-- The set-level hash built by `convertToTuple` for one Instruction
Set: the header, then the instruction loop's `arg_set` writes and the
`instructions` array.  The Go code appends the (aliased,
still-mutating) map to the result both before and after the loop, so
the observable output holds the finished hash twice per set. -/
def serializeSet (s : ISet) : Hmap :=
  let (aInst, h) := insLoop [] (setHeader s) s.instructions
  hset h "instructions" (.vArray aInst)

/-- `convertToTuple` from vm/ripper.go: the result array, two (aliased)
hash entries per Instruction Set. -/
def convertToTuple (sets : List ISet) : Value :=
  .vArray (sets.foldl
    (fun ary s => ary ++ [.vHash (serializeSet s), .vHash (serializeSet s)]) [])

/-- `Ripper.parse`: argument guards, then the parser; a parse failure
becomes the fixed invalid-code `TypeError`, success the canonical
rendering. -/
def ripperParse (sourceLine : Int) (args : List Value) : Except ErrObj Value :=
  match args with
  | [Value.vString s] =>
    match Parser.parseRip s with
    | .error _ => .error (invalidCodeErr sourceLine)
    | .ok prog => .ok (.vString (Ast.printProgram prog))
  | [a] => .error (wrongArgTypeErr sourceLine "String" a.className)
  | _ => .error (arityErr sourceLine args.length)

/-- `Ripper.instruction`: argument guards, then compilation; a
compilation failure becomes the fixed invalid-code `TypeError`, success
the tuple serialization. -/
def ripperInstruction (sourceLine : Int) (args : List Value) :
    Except ErrObj Value :=
  match args with
  | [Value.vString s] =>
    match Compiler.compileToInstructions s with
    | .error _ => .error (invalidCodeErr sourceLine)
    | .ok i => .ok (convertToTuple i)
  | [a] => .error (wrongArgTypeErr sourceLine "String" a.className)
  | _ => .error (arityErr sourceLine args.length)

/-- Whether a guest value is a `StringObject`. -/
def isStringV : Value → Bool
  | .vString _ => true
  | _ => false

/-- The element list of an array value. -/
def tupleElems : Value → List Value
  | .vArray l => l
  | _ => []

/-- Key lookup inside a hash value. -/
def hashGet (v : Value) (k : String) : Option Value :=
  match v with
  | .vHash h => hget h k
  | _ => none

theorem insLoop_fst (l : List Bytecode.Instr) : ∀ (acc : List Value) (h : Hmap),
    (insLoop acc h l).1 = acc ++ l.map (fun i => Value.vHash (serializeIns i)) := by
  induction l with
  | nil => intro acc h; simp [insLoop]
  | cons i rest ih =>
    intro acc h
    cases hi : i.argSet <;> simp [insLoop, hi, ih]

theorem insLoop_hget (l : List Bytecode.Instr) :
    ∀ (acc : List Value) (h : Hmap) (k : String), k ≠ "arg_set" →
      hget (insLoop acc h l).2 k = hget h k := by
  induction l with
  | nil => intro acc h k hk; simp [insLoop]
  | cons i rest ih =>
    intro acc h k hk
    cases hi : i.argSet with
    | none => simp [insLoop, hi, ih _ _ k hk]
    | some a =>
      simp only [insLoop, hi]
      rw [ih _ _ k hk, hget_hset_ne _ _ _ _ (Ne.symm hk)]

theorem setHeader_hget_argTypes (s : Bytecode.ISet) :
    hget (setHeader s) "arg_types" = Option.map getArgNameType s.argTypes := by
  cases h : s.argTypes with
  | none => simp [setHeader, h, hget, hset]
  | some a => simp [setHeader, h, hget_hset_self]

theorem setHeader_hget_type (s : Bytecode.ISet) :
    hget (setHeader s) "type" = some (.vString s.isType) := by
  cases h : s.argTypes with
  | none => simp [setHeader, h, hget, hset]
  | some a =>
    simp only [setHeader, h]
    rw [hget_hset_ne _ _ _ _ (by decide)]
    simp [hget, hset]

theorem serializeSet_eq (s : Bytecode.ISet) :
    serializeSet s = hset (insLoop [] (setHeader s) s.instructions).2
      "instructions"
      (.vArray (s.instructions.map (fun i => Value.vHash (serializeIns i)))) := by
  unfold serializeSet
  rcases hl : insLoop [] (setHeader s) s.instructions with ⟨aInst, h2⟩
  have hfst := insLoop_fst s.instructions [] (setHeader s)
  rw [hl] at hfst
  simp at hfst
  simp [hfst]

theorem serializeSet_instructions (s : Bytecode.ISet) :
    hget (serializeSet s) "instructions" =
      some (.vArray (s.instructions.map (fun i => Value.vHash (serializeIns i)))) := by
  rw [serializeSet_eq, hget_hset_self]

theorem serializeSet_hget_other (s : Bytecode.ISet) (k : String)
    (hk1 : k ≠ "instructions") (hk2 : k ≠ "arg_set") :
    hget (serializeSet s) k = hget (setHeader s) k := by
  rw [serializeSet_eq, hget_hset_ne _ _ _ _ (Ne.symm hk1),
    insLoop_hget _ _ _ _ hk2]

theorem serializeSet_argTypes (s : Bytecode.ISet) :
    hget (serializeSet s) "arg_types" = Option.map getArgNameType s.argTypes := by
  rw [serializeSet_hget_other s "arg_types" (by decide) (by decide),
    setHeader_hget_argTypes]

theorem serializeSet_type (s : Bytecode.ISet) :
    hget (serializeSet s) "type" = some (.vString s.isType) := by
  rw [serializeSet_hget_other s "type" (by decide) (by decide),
    setHeader_hget_type]

theorem serializeIns_anchor (ins : Bytecode.Instr) :
    hget (serializeIns ins) "anchor" =
      some (.vInt (Bytecode.anchorOrZero ins)) := by
  unfold serializeIns
  rw [hget_hset_ne _ _ _ _ (by decide), hget_hset_self]

theorem getArgNameType_names (a : Bytecode.ArgSetM) :
    hashGet (getArgNameType a) "names" =
      some (.vArray ((Bytecode.argNames a).map Value.vString)) := by
  show hget (hset (hset [] "names" (.vArray ((Bytecode.argNames a).map Value.vString)))
      "types" (.vArray ((Bytecode.argTypesOf a).map Value.vInt))) "names" = _
  rw [hget_hset_ne _ _ _ _ (by decide), hget_hset_self]

theorem getArgNameType_types (a : Bytecode.ArgSetM) :
    hashGet (getArgNameType a) "types" =
      some (.vArray ((Bytecode.argTypesOf a).map Value.vInt)) := by
  show hget (hset (hset [] "names" (.vArray ((Bytecode.argNames a).map Value.vString)))
      "types" (.vArray ((Bytecode.argTypesOf a).map Value.vInt))) "types" = _
  rw [hget_hset_self]

theorem argNames_length_eq_argTypes (a : Bytecode.ArgSetM) :
    ((Bytecode.argNames a).map Value.vString).length =
      ((Bytecode.argTypesOf a).map Value.vInt).length := by
  simp [Bytecode.argNames, Bytecode.argTypesOf]

theorem tuple_foldl_acc (sets : List Bytecode.ISet) :
    ∀ acc : List Value,
      sets.foldl (fun ary s =>
        ary ++ [.vHash (serializeSet s), .vHash (serializeSet s)]) acc =
      acc ++ sets.foldl (fun ary s =>
        ary ++ [.vHash (serializeSet s), .vHash (serializeSet s)]) [] := by
  induction sets with
  | nil => intro acc; simp
  | cons hd tl ih =>
    intro acc
    simp only [List.foldl_cons]
    rw [ih (acc ++ _), ih ([] ++ _)]
    simp

theorem mem_convertToTuple (sets : List Bytecode.ISet) (s : Bytecode.ISet)
    (hs : s ∈ sets) :
    Value.vHash (serializeSet s) ∈ tupleElems (convertToTuple sets) := by
  induction sets with
  | nil => cases hs
  | cons hd tl ih =>
    unfold convertToTuple tupleElems
    simp only [List.foldl_cons]
    rw [tuple_foldl_acc tl]
    rcases List.mem_cons.mp hs with rfl | htl
    · simp
    · have := ih htl
      unfold convertToTuple tupleElems at this
      simp [this]

theorem lexRows_append_eof (l : Nat) (pre : List Lexer.Token)
    (hne : ∀ t ∈ pre, t.type ≠ "EOF") :
    lexRows (pre ++ [Lexer.eofTok l]) =
      pre.map (fun t =>
        Value.vArray [.vInt (t.line : Int), .vString (convertLex t.type),
          .vString t.literal]) ++
        [Value.vArray [.vInt (l : Int), .vString (convertLex "EOF"), .vString ""]] := by
  induction pre with
  | nil => simp [lexRows, Lexer.eofTok]
  | cons t pre ih =>
    have ht : t.type ≠ "EOF" := hne t (by simp)
    have ih' := ih (fun u hu => hne u (by simp [hu]))
    simp [lexRows, ht, ih']

end Goby

namespace Goby.Compiler

open Goby.Ast
open Goby.Bytecode

/-- A nested scope's Instruction Set: a method definition or a block,
always carrying an ArgSet. -/
def goodSet (s : ISet) : Prop :=
  (s.isType = "Def" ∨ s.isType = "Block") ∧ s.argTypes.isSome = true

mutual

theorem stmts_sets_good (sl : StmtList) :
    ∀ x ∈ (compileStmts sl).2, goodSet x := by
  cases sl with
  | nilS => simp [compileStmts]
  | consS s rest =>
    intro x hx
    rcases hs : compileStmt s with ⟨i1, s1⟩
    rcases hr : compileStmts rest with ⟨i2, s2⟩
    rw [show (compileStmts (.consS s rest)).2 = s1 ++ s2 by
      simp [compileStmts, hs, hr]] at hx
    rcases List.mem_append.mp hx with h | h
    · exact stmt_sets_good s x (by rw [hs]; exact h)
    · exact stmts_sets_good rest x (by rw [hr]; exact h)

theorem stmt_sets_good (st : Stmt) :
    ∀ x ∈ (compileStmt st).2, goodSet x := by
  cases st with
  | exprS line e =>
    intro x hx
    rcases he : compileExpr line e with ⟨ie, se⟩
    rw [show (compileStmt (.exprS line e)).2 = se by
      simp [compileStmt, he]] at hx
    exact expr_sets_good line e x (by rw [he]; exact hx)
  | classS line name sup body =>
    intro x hx
    rcases hb : compileStmts body with ⟨ib, sb⟩
    rw [show (compileStmt (.classS line name sup body)).2 = sb by
      simp [compileStmt, hb]] at hx
    exact stmts_sets_good body x (by rw [hb]; exact hx)
  | moduleS line name body =>
    intro x hx
    rcases hb : compileStmts body with ⟨ib, sb⟩
    rw [show (compileStmt (.moduleS line name body)).2 = sb by
      simp [compileStmt, hb]] at hx
    exact stmts_sets_good body x (by rw [hb]; exact hx)
  | defS line name selfRecv ps body =>
    intro x hx
    rcases hb : compileStmts body with ⟨ib, sb⟩
    rw [show (compileStmt (.defS line name selfRecv ps body)).2 =
        sb ++ [finalizeSet name "Def" (some (mkArgSetM ps)) ib line] by
      simp [compileStmt, hb]] at hx
    rcases List.mem_append.mp hx with h | h
    · exact stmts_sets_good body x (by rw [hb]; exact h)
    · rcases List.mem_singleton.mp h with rfl
      exact ⟨Or.inl rfl, rfl⟩

theorem expr_sets_good (line : Nat) (e : Expr) :
    ∀ x ∈ (compileExpr line e).2, goodSet x := by
  cases e with
  | intLit l => simp [compileExpr]
  | floatLit l => simp [compileExpr]
  | strLit s => simp [compileExpr]
  | boolLit b => simp [compileExpr]
  | nilLit => simp [compileExpr]
  | identE n => simp [compileExpr]
  | getBlockE => simp [compileExpr]
  | constRef f r => simp [compileExpr]
  | selfE => simp [compileExpr]
  | ivarE n => simp [compileExpr]
  | prefixE op e1 =>
    intro x hx
    rcases he : compileExpr line e1 with ⟨ie, se⟩
    rw [show (compileExpr line (.prefixE op e1)).2 = se by
      simp [compileExpr, he]] at hx
    exact expr_sets_good line e1 x (by rw [he]; exact hx)
  | infixE op l r =>
    intro x hx
    rcases hl : compileExpr line l with ⟨il, sl⟩
    rcases hr : compileExpr line r with ⟨ir, sr⟩
    rw [show (compileExpr line (.infixE op l r)).2 = sl ++ sr by
      simp [compileExpr, hl, hr]] at hx
    rcases List.mem_append.mp hx with h | h
    · exact expr_sets_good line l x (by rw [hl]; exact h)
    · exact expr_sets_good line r x (by rw [hr]; exact h)
  | assignE t v =>
    intro x hx
    rcases hv : compileExpr line v with ⟨iv, sv⟩
    rw [show (compileExpr line (.assignE t v)).2 = sv by
      simp [compileExpr, hv]] at hx
    exact expr_sets_good line v x (by rw [hv]; exact hx)
  | callE recv m args blk =>
    intro x hx
    rcases hr : compileRecv line recv with ⟨ir, sr⟩
    rcases ha : compileArgs line args with ⟨ia, rest⟩
    rcases rest with ⟨sa, n⟩
    rcases hb : compileBlock line blk with ⟨bps, bsets⟩
    rw [show (compileExpr line (.callE recv m args blk)).2 =
        sr ++ sa ++ bsets by simp [compileExpr, hr, ha, hb]] at hx
    rcases List.mem_append.mp hx with h | h
    · rcases List.mem_append.mp h with h' | h'
      · exact recv_sets_good line recv x (by rw [hr]; exact h')
      · exact args_sets_good line args x (by rw [ha]; exact h')
    · exact block_sets_good line blk x (by rw [hb]; exact h)
  | yieldE args =>
    intro x hx
    rcases ha : compileArgs line args with ⟨ia, rest⟩
    rcases rest with ⟨sa, n⟩
    rw [show (compileExpr line (.yieldE args)).2 = sa by
      simp [compileExpr, ha]] at hx
    exact args_sets_good line args x (by rw [ha]; exact hx)

theorem recv_sets_good (line : Nat) (r : OptRecv) :
    ∀ x ∈ (compileRecv line r).2, goodSet x := by
  cases r with
  | implicitSelf => simp [compileRecv]
  | recv e =>
    intro x hx
    exact expr_sets_good line e x hx

theorem args_sets_good (line : Nat) (el : ExprList) :
    ∀ x ∈ (compileArgs line el).2.1, goodSet x := by
  cases el with
  | nilE => simp [compileArgs]
  | consE e rest =>
    intro x hx
    rcases he : compileExpr line e with ⟨i1, s1⟩
    rcases hr : compileArgs line rest with ⟨i2, rest'⟩
    rcases rest' with ⟨s2, n⟩
    rw [show (compileArgs line (.consE e rest)).2.1 = s1 ++ s2 by
      simp [compileArgs, he, hr]] at hx
    rcases List.mem_append.mp hx with h | h
    · exact expr_sets_good line e x (by rw [he]; exact h)
    · exact args_sets_good line rest x (by rw [hr]; exact h)

theorem block_sets_good (line : Nat) (b : OptBlock) :
    ∀ x ∈ (compileBlock line b).2, goodSet x := by
  cases b with
  | noneB => simp [compileBlock]
  | someB ps body =>
    intro x hx
    rcases hb : compileStmts body with ⟨ib, sb⟩
    rw [show (compileBlock line (.someB ps body)).2 =
        sb ++ [finalizeSet "Block" "Block" (some (mkArgSetM ps)) ib line] by
      simp [compileBlock, hb]] at hx
    rcases List.mem_append.mp hx with h | h
    · exact stmts_sets_good body x (by rw [hb]; exact h)
    · rcases List.mem_singleton.mp h with rfl
      exact ⟨Or.inr rfl, rfl⟩

end

/-- The shape of a compiled program: the top-level `Program` set without
an ArgSet first, then only method/block sets, each with one. -/
theorem compileProgram_shape (prog : StmtList) :
    ∃ tail, compileProgram prog =
      finalizeSet "ProgramStart" "Program" none (compileStmts prog).1 0 :: tail ∧
      ∀ x ∈ tail, goodSet x := by
  refine ⟨(compileStmts prog).2, ?_, stmts_sets_good prog⟩
  unfold compileProgram
  rfl

end Goby.Compiler

namespace Goby.RoundTrip

open Goby.Lexer
open Goby.Ast

/-!
Round-trip infrastructure for the idempotent-printing analysis: the
canonical text of a fragment of the AST re-lexes to predictable tokens
and re-parses to a program with the same canonical text.
-/

theorem strMkData (s : String) : String.mk s.data = s := by
  cases s; rfl

theorem strDataAppend (a b : String) : (a ++ b).data = a.data ++ b.data := rfl

theorem letter_not_digit (c : Char) (h : isLetterC c = true) :
    c.isDigit = false := by
  cases hd : c.isDigit
  · rfl
  · exfalso
    simp only [Char.isDigit, Bool.and_eq_true, decide_eq_true_eq, ge_iff_le] at hd
    obtain ⟨hd1, hd2⟩ := hd
    have d1 : (48:UInt32).toNat ≤ c.val.toNat := hd1
    have d2 : c.val.toNat ≤ (57:UInt32).toNat := hd2
    have e1 : (48:UInt32).toNat = 48 := rfl
    have e2 : (57:UInt32).toNat = 57 := rfl
    simp only [isLetterC, Bool.or_eq_true, decide_eq_true_eq] at h
    rcases h with h | h
    · simp only [Char.isAlpha, Char.isLower, Char.isUpper, Bool.or_eq_true,
        Bool.and_eq_true, decide_eq_true_eq, ge_iff_le] at h
      rcases h with ⟨h1, h2⟩ | ⟨h1, h2⟩
      · have a1 : (65:UInt32).toNat ≤ c.val.toNat := h1
        have e3 : (65:UInt32).toNat = 65 := rfl
        omega
      · have a1 : (97:UInt32).toNat ≤ c.val.toNat := h1
        have e3 : (97:UInt32).toNat = 97 := rfl
        omega
    · subst h
      have e3 : ('_' : Char).val.toNat = 95 := rfl
      omega

theorem letter_facts (c : Char) (h : isLetterC c = true) :
    c ≠ '\n' ∧ ((c = ' ' || c = '\t' || c = '\r') = false) ∧ c ≠ '#' ∧
      c.isDigit = false ∧ (c = dquoteChar ∨ c = squoteChar) = False ∧
      c ≠ '@' := by
  refine ⟨?_, ?_, ?_, letter_not_digit c h, ?_, ?_⟩
  · rintro rfl; exact absurd h (by decide)
  · cases h1 : decide (c = ' ') with
    | true => exact absurd h (by simp at h1; subst h1; decide)
    | false =>
      cases h2 : decide (c = '\t') with
      | true => exact absurd h (by simp at h2; subst h2; decide)
      | false =>
        cases h3 : decide (c = '\r') with
        | true => exact absurd h (by simp at h3; subst h3; decide)
        | false => simp [h1, h2, h3]
  · rintro rfl; exact absurd h (by decide)
  · simp only [eq_iff_iff, iff_false]
    rintro (rfl | rfl) <;> exact absurd h (by decide)
  · rintro rfl; exact absurd h (by decide)

/-- Unfold one emitting step of the lexing driver, fuel-free. -/
theorem lexAll_emit {cs : List Char} {line : Nat} {c : Char}
    {rest : List Char} {l : Nat} (hsk : skipWS cs line = (c :: rest, l)) :
    lexAll cs line =
      (readToken c rest l).1 :: lexAll (readToken c rest l).2 l := by
  rcases cs with _ | ⟨c0, cs0⟩
  · rw [show skipWS [] line = ([], line) from rfl] at hsk
    cases hsk
  · have hlen : rest.length < (c0 :: cs0).length := by
      have := skipWS_length (c0 :: cs0) line
      rw [hsk] at this
      simp at this ⊢
      omega
    rcases hrt : readToken c rest l with ⟨tok, rest2⟩
    have hr2 : rest2.length ≤ rest.length := by
      have := readToken_rest_length c rest l; rw [hrt] at this; exact this
    show lexFuel ((c0 :: cs0).length + 1) (c0 :: cs0) line = _
    rw [show lexFuel ((c0 :: cs0).length + 1) (c0 :: cs0) line =
        (match skipWS (c0 :: cs0) line with
         | ([], l) => [eofTok l]
         | (c :: rest, l) =>
           let (tok, rest2) := readToken c rest l
           tok :: lexFuel (c0 :: cs0).length rest2 l) from rfl]
    rw [hsk]
    simp only [hrt]
    rw [lexFuel_fuel_irrel (c0 :: cs0).length (rest2.length + 1) rest2 l
      (by simp at hlen ⊢; omega) (by omega)]
    rfl

/-- Unfold the terminal step of the lexing driver. -/
theorem lexAll_end {cs : List Char} {line l : Nat}
    (hsk : skipWS cs line = ([], l)) :
    lexAll cs line = [eofTok l] := by
  rcases cs with _ | ⟨c0, cs0⟩
  · rw [show skipWS [] line = ([], line) from rfl] at hsk
    cases hsk
    rfl
  · show lexFuel ((c0 :: cs0).length + 1) (c0 :: cs0) line = _
    rw [show lexFuel ((c0 :: cs0).length + 1) (c0 :: cs0) line =
        (match skipWS (c0 :: cs0) line with
         | ([], l) => [eofTok l]
         | (c :: rest, l) =>
           let (tok, rest2) := readToken c rest l
           tok :: lexFuel (c0 :: cs0).length rest2 l) from rfl]
    rw [hsk]

theorem spanP_append_all (p : Char → Bool) (xs rest : List Char)
    (hall : ∀ x ∈ xs, p x = true) :
    spanP p (xs ++ rest) = (xs ++ (spanP p rest).1, (spanP p rest).2) := by
  induction xs with
  | nil => simp
  | cons x xs ih =>
    have hx : p x = true := hall x (by simp)
    have ih' := ih (fun y hy => hall y (by simp [hy]))
    simp [spanP, hx, ih']

theorem spanP_stop (p : Char → Bool) (rest : List Char)
    (h : rest = [] ∨ ∃ d ds, rest = d :: ds ∧ p d = false) :
    spanP p rest = ([], rest) := by
  rcases h with rfl | ⟨d, ds, rfl, hd⟩
  · rfl
  · simp [spanP, hd]

/-- The safe following-context for a printed fragment segment: nothing,
a space, a closing delimiter, a comma, or a call dot followed by a
letter. -/
def lexBoundary (rest : List Char) : Prop :=
  rest = [] ∨ (∃ ds, rest = ' ' :: ds) ∨ (∃ ds, rest = ')' :: ds) ∨
    (∃ ds, rest = ',' :: ds) ∨
    (∃ d2 ds, rest = '.' :: d2 :: ds ∧ isLetterC d2 = true)

theorem lexBoundary_not_identC (rest : List Char) (h : lexBoundary rest) :
    rest = [] ∨ ∃ d ds, rest = d :: ds ∧ isIdentC d = false := by
  rcases h with rfl | ⟨ds, rfl⟩ | ⟨ds, rfl⟩ | ⟨ds, rfl⟩ | ⟨d2, ds, rfl, _⟩
  · exact Or.inl rfl
  · exact Or.inr ⟨_, _, rfl, by decide⟩
  · exact Or.inr ⟨_, _, rfl, by decide⟩
  · exact Or.inr ⟨_, _, rfl, by decide⟩
  · exact Or.inr ⟨_, _, rfl, by decide⟩

/-- A space is skipped. -/
theorem lexSpace (rest : List Char) (line : Nat) :
    lexAll (' ' :: rest) line = lexAll rest line := by
  have hsk : skipWS (' ' :: rest) line = skipWS rest line := rfl
  rcases hr : skipWS rest line with ⟨rem, l⟩
  rcases rem with _ | ⟨c, rest2⟩
  · rw [lexAll_end (hsk.trans hr), lexAll_end hr]
  · rw [lexAll_emit (hsk.trans hr), lexAll_emit hr]

theorem lexLParen (rest : List Char) (line : Nat) :
    lexAll ('(' :: rest) line = ⟨"(", "(", line⟩ :: lexAll rest line := by
  have hsk : skipWS ('(' :: rest) line = ('(' :: rest, line) := rfl
  rw [lexAll_emit hsk]
  rfl

theorem lexRParen (rest : List Char) (line : Nat) :
    lexAll (')' :: rest) line = ⟨")", ")", line⟩ :: lexAll rest line := by
  have hsk : skipWS (')' :: rest) line = (')' :: rest, line) := rfl
  rw [lexAll_emit hsk]
  rfl

theorem lexComma (rest : List Char) (line : Nat) :
    lexAll (',' :: rest) line = ⟨",", ",", line⟩ :: lexAll rest line := by
  have hsk : skipWS (',' :: rest) line = (',' :: rest, line) := rfl
  rw [lexAll_emit hsk]
  rfl

/-- A `.` not followed by another `.` lexes as the method-call dot. -/
theorem lexDot (rest : List Char) (line : Nat)
    (h : ∀ ds, rest ≠ '.' :: ds) :
    lexAll ('.' :: rest) line = ⟨".", ".", line⟩ :: lexAll rest line := by
  have hop : opDot rest = (".", ".", 0) := by
    match rest with
    | [] => rfl
    | d :: ds =>
      have hd : d ≠ '.' := fun hd => h ds (by rw [hd])
      unfold opDot
      split
      · rename_i heq
        injection heq with h1 _
        exact absurd h1 hd
      · rfl
  have hsk : skipWS ('.' :: rest) line = ('.' :: rest, line) := rfl
  rw [lexAll_emit hsk]
  have hrt : readToken '.' rest line = (⟨".", ".", line⟩, rest) := by
    show ((⟨(opTok '.' rest).1, (opTok '.' rest).2.1, line⟩ : Token),
        rest.drop (opTok '.' rest).2.2) = (⟨".", ".", line⟩, rest)
    have ho : opTok '.' rest = opDot rest := rfl
    rw [ho, hop]
    rfl
  rw [hrt]

/-- An identifier-or-keyword word: its characters, scanned greedily up
to a non-identifier character. -/
theorem lexWordSeg (c : Char) (cs rest : List Char) (line : Nat)
    (hc : isLetterC c = true) (hcs : ∀ x ∈ cs, isIdentC x = true)
    (hrest : rest = [] ∨ ∃ d ds, rest = d :: ds ∧ isIdentC d = false) :
    lexAll ((c :: cs) ++ rest) line =
      (identToken c (cs ++ rest) line).1 ::
        lexAll rest line ∧
      identToken c (cs ++ rest) line =
        ((identToken c cs line).1, rest) := by
  obtain ⟨h1, h2, h3, _, _, _⟩ := letter_facts c hc
  have hsk : skipWS ((c :: cs) ++ rest) line = (c :: (cs ++ rest), line) := by
    show skipWS (c :: (cs ++ rest)) line = _
    unfold skipWS
    simp [h1, h2, h3]
  have hspan : spanP isIdentC (cs ++ rest) = (cs, rest) := by
    rw [spanP_append_all isIdentC cs rest hcs, spanP_stop isIdentC rest hrest]
    simp
  have hid : identToken c (cs ++ rest) line = ((identToken c cs line).1, rest) := by
    unfold identToken
    rw [hspan]
    have : spanP isIdentC cs = (cs, []) := by
      have := spanP_append_all isIdentC cs [] hcs
      simpa [spanP] using this
    simp [this]
  constructor
  · rw [lexAll_emit hsk]
    have hrt : readToken c (cs ++ rest) line = ((identToken c cs line).1, rest) := by
      unfold readToken
      rw [if_pos hc, hid]
    rw [hrt, hid]
  · exact hid

/-- A digit run followed by a boundary lexes as one `INT` token. -/
theorem lexIntSeg (c : Char) (cs rest : List Char) (line : Nat)
    (hc : c.isDigit = true) (hcs : ∀ x ∈ cs, Char.isDigit x = true)
    (hb : lexBoundary rest) :
    lexAll ((c :: cs) ++ rest) line =
      ⟨"INT", String.mk (c :: cs), line⟩ :: lexAll rest line := by
  have hcl : isLetterC c = false := by
    cases hl : isLetterC c
    · rfl
    · rw [letter_not_digit c hl] at hc; cases hc
  have hne : c ≠ '\n' ∧ ((c = ' ' || c = '\t' || c = '\r') = false) ∧
      c ≠ '#' ∧ (c = dquoteChar ∨ c = squoteChar) = False ∧ c ≠ '@' := by
    refine ⟨?_, ?_, ?_, ?_, ?_⟩
    · rintro rfl; cases hc
    · cases h1 : decide (c = ' ') with
      | true => simp at h1; subst h1; cases hc
      | false =>
        cases h2 : decide (c = '\t') with
        | true => simp at h2; subst h2; cases hc
        | false =>
          cases h3 : decide (c = '\r') with
          | true => simp at h3; subst h3; cases hc
          | false => simp [h1, h2, h3]
    · rintro rfl; cases hc
    · simp only [eq_iff_iff, iff_false]
      rintro (rfl | rfl) <;> cases hc
    · rintro rfl; cases hc
  obtain ⟨h1, h2, h3, h4, h5⟩ := hne
  have hsk : skipWS ((c :: cs) ++ rest) line = (c :: (cs ++ rest), line) := by
    show skipWS (c :: (cs ++ rest)) line = _
    unfold skipWS
    simp [h1, h2, h3]
  have hstop : rest = [] ∨ ∃ d ds, rest = d :: ds ∧ Char.isDigit d = false := by
    rcases hb with rfl | ⟨ds, rfl⟩ | ⟨ds, rfl⟩ | ⟨ds, rfl⟩ | ⟨d2, ds, rfl, hd2⟩
    · exact Or.inl rfl
    · exact Or.inr ⟨_, _, rfl, by decide⟩
    · exact Or.inr ⟨_, _, rfl, by decide⟩
    · exact Or.inr ⟨_, _, rfl, by decide⟩
    · exact Or.inr ⟨_, _, rfl, by decide⟩
  have hspan : spanP Char.isDigit (cs ++ rest) = (cs, rest) := by
    rw [spanP_append_all Char.isDigit cs rest hcs,
      spanP_stop Char.isDigit rest hstop]
    simp
  have hnum : numToken c (cs ++ rest) line =
      (⟨"INT", String.mk (c :: cs), line⟩, rest) := by
    unfold numToken
    rw [hspan]
    rcases hb with rfl | ⟨ds, rfl⟩ | ⟨ds, rfl⟩ | ⟨ds, rfl⟩ | ⟨d2, ds, rfl, hd2⟩
    · rfl
    · rcases ds with _ | ⟨e, ds⟩
      · rfl
      · simp [show (decide (' ' = '.') && e.isDigit) = false by simp]
    · rcases ds with _ | ⟨e, ds⟩
      · rfl
      · simp [show (decide (')' = '.') && e.isDigit) = false by simp]
    · rcases ds with _ | ⟨e, ds⟩
      · rfl
      · simp [show (decide (',' = '.') && e.isDigit) = false by simp]
    · simp [letter_not_digit d2 hd2]
  rw [lexAll_emit hsk]
  have hrt : readToken c (cs ++ rest) line =
      (⟨"INT", String.mk (c :: cs), line⟩, rest) := by
    unfold readToken
    rw [if_neg (by simp [hcl]), if_pos hc, hnum]
  rw [hrt]

theorem spanP_all (p : Char → Bool) (cs : List Char)
    (hall : ∀ x ∈ cs, p x = true) : spanP p cs = (cs, []) := by
  have h := spanP_append_all p cs [] hall
  simpa [spanP] using h

/-- One lexing step for a token whose scan is already computed. -/
theorem lexAll_cons (c : Char) (cs : List Char) (line : Nat)
    (hsk : skipWS (c :: cs) line = (c :: cs, line))
    (tok : Token) (rest : List Char)
    (hrt : readToken c cs line = (tok, rest)) :
    lexAll (c :: cs) line = tok :: lexAll rest line := by
  rw [lexAll_emit hsk, hrt]

/-- An identifier-or-keyword word, with the scan of the word alone. -/
theorem lexWord (c : Char) (cs rest : List Char) (line : Nat)
    (hc : isLetterC c = true) (hcs : ∀ x ∈ cs, isIdentC x = true)
    (hrest : rest = [] ∨ ∃ d ds, rest = d :: ds ∧ isIdentC d = false) :
    lexAll ((c :: cs) ++ rest) line =
      (identToken c cs line).1 :: lexAll rest line := by
  obtain ⟨h1, h2⟩ := lexWordSeg c cs rest line hc hcs hrest
  rw [h1, h2]

/-- A `::` token (always followed by a space in canonical output). -/
theorem lexColonColon (rest : List Char) (line : Nat) :
    lexAll (':' :: ':' :: ' ' :: rest) line =
      ⟨"::", "::", line⟩ :: lexAll rest line := by
  rw [lexAll_cons ':' (':' :: ' ' :: rest) line rfl ⟨"::", "::", line⟩
    (' ' :: rest) rfl, lexSpace]

/-- A `!` not followed by `=`. -/
theorem lexBangTok (d : Char) (ds : List Char) (line : Nat) (hd : d ≠ '=') :
    lexAll ('!' :: d :: ds) line = ⟨"!", "!", line⟩ :: lexAll (d :: ds) line := by
  have hop : opBang (d :: ds) = ("!", "!", 0) := by
    unfold opBang
    split
    · rename_i heq
      injection heq with h1 _
      exact absurd h1 hd
    · rfl
  refine lexAll_cons '!' (d :: ds) line rfl _ _ ?_
  show ((⟨(opTok '!' (d :: ds)).1, (opTok '!' (d :: ds)).2.1, line⟩ : Token),
      (d :: ds).drop (opTok '!' (d :: ds)).2.2) = (⟨"!", "!", line⟩, d :: ds)
  have ho : opTok '!' (d :: ds) = opBang (d :: ds) := rfl
  rw [ho, hop]
  rfl

/-- A `-` not followed by `=`. -/
theorem lexMinusTok (d : Char) (ds : List Char) (line : Nat) (hd : d ≠ '=') :
    lexAll ('-' :: d :: ds) line = ⟨"-", "-", line⟩ :: lexAll (d :: ds) line := by
  have hop : opMinus (d :: ds) = ("-", "-", 0) := by
    unfold opMinus
    split
    · rename_i heq
      injection heq with h1 _
      exact absurd h1 hd
    · rfl
  refine lexAll_cons '-' (d :: ds) line rfl _ _ ?_
  show ((⟨(opTok '-' (d :: ds)).1, (opTok '-' (d :: ds)).2.1, line⟩ : Token),
      (d :: ds).drop (opTok '-' (d :: ds)).2.2) = (⟨"-", "-", line⟩, d :: ds)
  have ho : opTok '-' (d :: ds) = opMinus (d :: ds) := rfl
  rw [ho, hop]
  rfl

/-- The binary operators of the printable fragment. -/
def isBinOp (op : String) : Bool :=
  op ∈ (["+", "-", "*", "/", "%", "**", "==", "!=", "<", "<=", ">", ">=",
    "<=>", "&&", "||"] : List String)

/-- Every fragment operator, followed by the space the printer always
emits, lexes to the single token carrying the operator itself. -/
theorem lexOpSp (op : String) (hop : isBinOp op = true)
    (rest : List Char) (line : Nat) :
    lexAll (op.data ++ ' ' :: rest) line =
      ⟨op, op, line⟩ :: lexAll rest line := by
  simp only [isBinOp, List.mem_cons, List.mem_singleton, decide_eq_true_eq] at hop
  simp only [List.not_mem_nil, or_false] at hop
  rcases hop with rfl | rfl | rfl | rfl | rfl | rfl | rfl | rfl | rfl | rfl |
    rfl | rfl | rfl | rfl | rfl <;>
    first
    | rw [show (String.data "+") ++ ' ' :: rest = '+' :: ' ' :: rest from rfl,
        lexAll_cons '+' (' ' :: rest) line rfl _ (' ' :: rest) rfl, lexSpace]
    | rw [show (String.data "-") ++ ' ' :: rest = '-' :: ' ' :: rest from rfl,
        lexAll_cons '-' (' ' :: rest) line rfl _ (' ' :: rest) rfl, lexSpace]
    | rw [show (String.data "*") ++ ' ' :: rest = '*' :: ' ' :: rest from rfl,
        lexAll_cons '*' (' ' :: rest) line rfl _ (' ' :: rest) rfl, lexSpace]
    | rw [show (String.data "/") ++ ' ' :: rest = '/' :: ' ' :: rest from rfl,
        lexAll_cons '/' (' ' :: rest) line rfl _ (' ' :: rest) rfl, lexSpace]
    | rw [show (String.data "%") ++ ' ' :: rest = '%' :: ' ' :: rest from rfl,
        lexAll_cons '%' (' ' :: rest) line rfl _ (' ' :: rest) rfl, lexSpace]
    | rw [show (String.data "**") ++ ' ' :: rest = '*' :: '*' :: ' ' :: rest from
        rfl,
        lexAll_cons '*' ('*' :: ' ' :: rest) line rfl _ (' ' :: rest) rfl,
        lexSpace]
    | rw [show (String.data "==") ++ ' ' :: rest = '=' :: '=' :: ' ' :: rest from
        rfl,
        lexAll_cons '=' ('=' :: ' ' :: rest) line rfl _ (' ' :: rest) rfl,
        lexSpace]
    | rw [show (String.data "!=") ++ ' ' :: rest = '!' :: '=' :: ' ' :: rest from
        rfl,
        lexAll_cons '!' ('=' :: ' ' :: rest) line rfl _ (' ' :: rest) rfl,
        lexSpace]
    | rw [show (String.data "<") ++ ' ' :: rest = '<' :: ' ' :: rest from rfl,
        lexAll_cons '<' (' ' :: rest) line rfl _ (' ' :: rest) rfl, lexSpace]
    | rw [show (String.data "<=") ++ ' ' :: rest = '<' :: '=' :: ' ' :: rest from
        rfl,
        lexAll_cons '<' ('=' :: ' ' :: rest) line rfl _ (' ' :: rest) rfl,
        lexSpace]
    | rw [show (String.data ">") ++ ' ' :: rest = '>' :: ' ' :: rest from rfl,
        lexAll_cons '>' (' ' :: rest) line rfl _ (' ' :: rest) rfl, lexSpace]
    | rw [show (String.data ">=") ++ ' ' :: rest = '>' :: '=' :: ' ' :: rest from
        rfl,
        lexAll_cons '>' ('=' :: ' ' :: rest) line rfl _ (' ' :: rest) rfl,
        lexSpace]
    | rw [show (String.data "<=>") ++ ' ' :: rest =
        '<' :: '=' :: '>' :: ' ' :: rest from rfl,
        lexAll_cons '<' ('=' :: '>' :: ' ' :: rest) line rfl _ (' ' :: rest) rfl,
        lexSpace]
    | rw [show (String.data "&&") ++ ' ' :: rest = '&' :: '&' :: ' ' :: rest from
        rfl,
        lexAll_cons '&' ('&' :: ' ' :: rest) line rfl _ (' ' :: rest) rfl,
        lexSpace]
    | rw [show (String.data "||") ++ ' ' :: rest = '|' :: '|' :: ' ' :: rest from
        rfl,
        lexAll_cons '|' ('|' :: ' ' :: rest) line rfl _ (' ' :: rest) rfl,
        lexSpace]

/-- A lower-case (or underscore) identifier that is not a keyword. -/
def validIdent (n : String) : Bool :=
  match n.data with
  | [] => false
  | c :: cs =>
    isLetterC c && !c.isUpper && cs.all isIdentC && !(decide (n ∈ keywords))

/-- An upper-case constant name that is not a keyword. -/
def validConst (n : String) : Bool :=
  match n.data with
  | [] => false
  | c :: cs =>
    isLetterC c && c.isUpper && cs.all isIdentC && !(decide (n ∈ keywords))

/-- First characters a printed fragment expression can have. -/
def headChar (c : Char) : Bool := c.isDigit || isLetterC c || decide (c = '(')

mutual

/-- The printable fragment: expressions whose canonical text re-lexes
and re-parses faithfully — literals, identifiers, constants (qualified
or not), `self`, `get_block`, `yield`, unary `!`/`-`, the binary
operators, and calls without blocks.  Excluded: string and float
literals, instance variables, assignments and blocks. -/
def plainE : Expr → Bool
  | .intLit l =>
    match l.data with
    | [] => false
    | c :: cs => c.isDigit && cs.all Char.isDigit
  | .floatLit _ => false
  | .strLit _ => false
  | .boolLit _ => true
  | .nilLit => true
  | .identE n => validIdent n
  | .getBlockE => true
  | .constRef f r => validConst f && r.all validConst
  | .selfE => true
  | .ivarE _ => false
  | .prefixE op e => (op = "!" || op = "-") && plainE e
  | .infixE op l r => isBinOp op && plainE l && plainE r
  | .assignE _ _ => false
  | .callE recv m args blk =>
    plainRecv recv && validIdent m && plainArgs args &&
      (match blk with | .noneB => true | _ => false)
  | .yieldE args => plainArgs args

def plainRecv : OptRecv → Bool
  | .implicitSelf => true
  | .recv e => plainE e

def plainArgs : ExprList → Bool
  | .nilE => true
  | .consE a rest => plainE a && plainArgs rest

end

/-- Token skeleton shorthand (canonical output is all on line 0). -/
abbrev tk (ty lit : String) : Token := ⟨ty, lit, 0⟩

/-- Tokens of a printed `::`-qualification path. -/
def pathToks : List String → List Token
  | [] => []
  | c :: rest => tk "::" "::" :: tk "CONSTANT" c :: pathToks rest

mutual

/-- The token stream the canonical text of a fragment expression lexes
to. -/
def toksE : Expr → List Token
  | .intLit l => [tk "INT" l]
  | .floatLit _ => []
  | .strLit _ => []
  | .boolLit b => if b then [tk "TRUE" "true"] else [tk "FALSE" "false"]
  | .nilLit => [tk "NIL" "nil"]
  | .identE n => [tk "IDENT" n]
  | .getBlockE => [tk "GET_BLOCK" "get_block"]
  | .constRef f r =>
    match r with
    | [] => [tk "CONSTANT" f]
    | _ => tk "(" "(" :: tk "CONSTANT" f :: pathToks r ++ [tk ")" ")"]
  | .selfE => [tk "SELF" "self"]
  | .ivarE _ => []
  | .prefixE op e => tk "(" "(" :: tk op op :: toksE e ++ [tk ")" ")"]
  | .infixE op l r => tk "(" "(" :: toksE l ++ tk op op :: toksE r ++ [tk ")" ")"]
  | .assignE _ _ => []
  | .callE recv m args _ =>
    recvToks recv ++ tk "." "." :: tk "IDENT" m :: tk "(" "(" ::
      argToks args ++ [tk ")" ")"]
  | .yieldE args => tk "YIELD" "yield" :: tk "(" "(" :: argToks args ++ [tk ")" ")"]

def recvToks : OptRecv → List Token
  | .implicitSelf => [tk "SELF" "self"]
  | .recv e => toksE e

def argToks : ExprList → List Token
  | .nilE => []
  | .consE a rest => toksE a ++ moreToks rest

def moreToks : ExprList → List Token
  | .nilE => []
  | .consE b rest => tk "," "," :: toksE b ++ moreToks rest

end

mutual

/-- Parse-normalization of a fragment expression: re-parsing the
canonical text makes every implicit call receiver an explicit `self`. -/
def normE : Expr → Expr
  | .intLit l => .intLit l
  | .floatLit l => .floatLit l
  | .strLit s => .strLit s
  | .boolLit b => .boolLit b
  | .nilLit => .nilLit
  | .identE n => .identE n
  | .getBlockE => .getBlockE
  | .constRef f r => .constRef f r
  | .selfE => .selfE
  | .ivarE n => .ivarE n
  | .prefixE op e => .prefixE op (normE e)
  | .infixE op l r => .infixE op (normE l) (normE r)
  | .assignE t v => .assignE (normE t) (normE v)
  | .callE recv m args blk => .callE (.recv (normRecv recv)) m (normArgs args) blk
  | .yieldE args => .yieldE (normArgs args)

def normRecv : OptRecv → Expr
  | .implicitSelf => .selfE
  | .recv e => normE e

def normArgs : ExprList → ExprList
  | .nilE => .nilE
  | .consE a rest => .consE (normE a) (normArgs rest)

end

mutual

/-- Normalization does not change the canonical text. -/
theorem printNormE (e : Expr) : printExpr (normE e) = printExpr e := by
  cases e with
  | intLit l => rfl
  | floatLit l => rfl
  | strLit s => rfl
  | boolLit b => rfl
  | nilLit => rfl
  | identE n => rfl
  | getBlockE => rfl
  | constRef f r => rfl
  | selfE => rfl
  | ivarE n => rfl
  | prefixE op e => simp [normE, printExpr, printNormE e]
  | infixE op l r => simp [normE, printExpr, printNormE l, printNormE r]
  | assignE t v => simp [normE, printExpr, printNormE t, printNormE v]
  | callE recv m args blk =>
    simp [normE, printExpr, printRecv, printNormRecv recv, printNormArgs args]
  | yieldE args => simp [normE, printExpr, printNormArgs args]

theorem printNormRecv (r : OptRecv) : printExpr (normRecv r) = printRecv r := by
  cases r with
  | implicitSelf => rfl
  | recv e => exact printNormE e

theorem printNormArgs (a : ExprList) : printArgs (normArgs a) = printArgs a := by
  cases a with
  | nilE => rfl
  | consE e rest => simp [normArgs, printArgs, printNormE e, printNormArgs rest]

end

mutual

/-- Fuel consumed by the re-parse of a fragment expression. -/
def szE : Expr → Nat
  | .intLit _ => 2
  | .floatLit _ => 0
  | .strLit _ => 0
  | .boolLit _ => 2
  | .nilLit => 2
  | .identE _ => 2
  | .getBlockE => 2
  | .constRef _ r =>
    match r with
    | [] => 3
    | _ => r.length + 6
  | .selfE => 2
  | .ivarE _ => 0
  | .prefixE _ e => szE e + 6
  | .infixE _ l r => szE l + szE r + 8
  | .assignE _ _ => 0
  | .callE recv _ args _ => szRecv recv + szArgs args + 8
  | .yieldE args => szArgs args + 6

def szRecv : OptRecv → Nat
  | .implicitSelf => 2
  | .recv e => szE e

def szArgs : ExprList → Nat
  | .nilE => 2
  | .consE a rest => szE a + szMore rest + 4

def szMore : ExprList → Nat
  | .nilE => 1
  | .consE b rest => szE b + szMore rest + 3

end

theorem strAppendEmpty (s : String) : s ++ "" = s := by
  cases s with
  | mk d =>
    show String.mk (d ++ []) = String.mk d
    rw [List.append_nil]

theorem headChar_ne_eq (c : Char) (h : headChar c = true) : c ≠ '=' := by
  simp only [headChar, Bool.or_eq_true, decide_eq_true_eq] at h
  rcases h with (h | h) | rfl
  · rintro rfl; simp at h
  · rintro rfl; exact absurd h (by decide)
  · decide

open Goby.Parser

/-- The properties of the fragment's binary operators the re-parse
relies on. -/
theorem binOp_facts (op : String) (h : isBinOp op = true) :
    precOf op ≠ 0 ∧ precOf op ≤ 7 ∧ op ≠ "." ∧ op ≠ "=" ∧ op ≠ "(" ∧
      op ≠ "DO" ∧ op ≠ "\x7b" ∧ op ≠ "::" ∧ startsExpr op = false := by
  simp only [isBinOp, List.mem_cons, List.mem_singleton,
    decide_eq_true_eq, List.not_mem_nil, or_false] at h
  rcases h with rfl | rfl | rfl | rfl | rfl | rfl | rfl | rfl | rfl | rfl |
    rfl | rfl | rfl | rfl | rfl <;> refine ⟨?_, ?_, ?_, ?_, ?_, ?_, ?_, ?_, ?_⟩ <;>
    decide

/-- Token kinds a fragment token stream can start with. -/
def headOK (ty : String) : Bool :=
  ty ∈ (["INT", "IDENT", "CONSTANT", "SELF", "TRUE", "FALSE", "NIL",
    "GET_BLOCK", "YIELD", "("] : List String)

theorem headOK_facts (ty : String) (h : headOK ty = true) :
    ty ≠ ";" ∧ ty ≠ "EOF" ∧ ty ≠ "END" ∧ ty ≠ "CLASS" ∧ ty ≠ "MODULE" ∧
      ty ≠ "DEF" ∧ ty ≠ ")" := by
  simp only [headOK, List.mem_cons, List.mem_singleton,
    decide_eq_true_eq, List.not_mem_nil, or_false] at h
  rcases h with rfl | rfl | rfl | rfl | rfl | rfl | rfl | rfl | rfl | rfl <;>
    refine ⟨?_, ?_, ?_, ?_, ?_, ?_, ?_⟩ <;> decide

mutual

/-- A fragment token stream is nonempty, starts with an expression
opener, and sits on line 0. -/
theorem toksE_head (e : Expr) (he : plainE e = true) :
    ∃ h t, toksE e = h :: t ∧ headOK h.type = true ∧ h.line = 0 := by
  cases e with
  | intLit l => exact ⟨_, _, rfl, rfl, rfl⟩
  | floatLit l => simp [plainE] at he
  | strLit s => simp [plainE] at he
  | boolLit b => cases b <;> exact ⟨_, _, rfl, rfl, rfl⟩
  | nilLit => exact ⟨_, _, rfl, rfl, rfl⟩
  | identE n => exact ⟨_, _, rfl, rfl, rfl⟩
  | getBlockE => exact ⟨_, _, rfl, rfl, rfl⟩
  | constRef f r =>
    cases r with
    | nil => exact ⟨_, _, rfl, rfl, rfl⟩
    | cons p ps => exact ⟨_, _, rfl, rfl, rfl⟩
  | selfE => exact ⟨_, _, rfl, rfl, rfl⟩
  | ivarE n => simp [plainE] at he
  | prefixE op e => exact ⟨_, _, rfl, rfl, rfl⟩
  | infixE op l r => exact ⟨_, _, rfl, rfl, rfl⟩
  | assignE t v => simp [plainE] at he
  | callE recv m args blk =>
    have hr : plainRecv recv = true := by
      simp only [plainE, Bool.and_eq_true] at he
      exact he.1.1.1
    obtain ⟨h, t, ht, hok, hl⟩ := recvToks_head recv hr
    refine ⟨h, t ++ (tk "." "." :: tk "IDENT" m :: tk "(" "(" ::
      (argToks args ++ [tk ")" ")"])), ?_, hok, hl⟩
    simp [toksE, ht]
  | yieldE args => exact ⟨_, _, rfl, rfl, rfl⟩

theorem recvToks_head (r : OptRecv) (hr : plainRecv r = true) :
    ∃ h t, recvToks r = h :: t ∧ headOK h.type = true ∧ h.line = 0 := by
  cases r with
  | implicitSelf => exact ⟨_, _, rfl, rfl, rfl⟩
  | recv e => exact toksE_head e hr

end

theorem pathToks_len (l : List String) : (pathToks l).length = 2 * l.length := by
  induction l with
  | nil => rfl
  | cons c rest ih => simp [pathToks, ih]; omega

mutual

/-- The fuel estimate is within the fuel the façade provides: eight
times the token count. -/
theorem szE_le (e : Expr) (he : plainE e = true) :
    szE e + 2 ≤ 8 * (toksE e).length := by
  cases e with
  | intLit l => simp [szE, toksE]
  | floatLit l => simp [plainE] at he
  | strLit s => simp [plainE] at he
  | boolLit b => cases b <;> simp [szE, toksE]
  | nilLit => simp [szE, toksE]
  | identE n => simp [szE, toksE]
  | getBlockE => simp [szE, toksE]
  | constRef f r =>
    cases r with
    | nil => simp [szE, toksE]
    | cons p ps =>
      simp [szE, toksE, pathToks, pathToks_len]
      omega
  | selfE => simp [szE, toksE]
  | ivarE n => simp [plainE] at he
  | prefixE op e =>
    have hp : plainE e = true := by
      simp only [plainE, Bool.and_eq_true] at he
      exact he.2
    have := szE_le e hp
    simp [szE, toksE]
    omega
  | infixE op l r =>
    have hp : plainE l = true ∧ plainE r = true := by
      simp only [plainE, Bool.and_eq_true] at he
      exact ⟨he.1.2, he.2⟩
    have hl := szE_le l hp.1
    have hr := szE_le r hp.2
    simp [szE, toksE]
    omega
  | assignE t v => simp [plainE] at he
  | callE recv m args blk =>
    have hp : plainRecv recv = true ∧ plainArgs args = true := by
      simp only [plainE, Bool.and_eq_true] at he
      exact ⟨he.1.1.1, he.1.2⟩
    have h1 := szRecv_le recv hp.1
    have h2 := szArgs_le args hp.2
    simp [szE, toksE]
    omega
  | yieldE args =>
    have := szArgs_le args he
    simp [szE, toksE]
    omega

theorem szRecv_le (r : OptRecv) (hr : plainRecv r = true) :
    szRecv r + 2 ≤ 8 * (recvToks r).length := by
  cases r with
  | implicitSelf => simp [szRecv, recvToks]
  | recv e => exact szE_le e hr

theorem szArgs_le (a : ExprList) (ha : plainArgs a = true) :
    szArgs a ≤ 8 * (argToks a).length + 8 := by
  cases a with
  | nilE => simp [szArgs, argToks]
  | consE e rest =>
    have hp : plainE e = true ∧ plainArgs rest = true := by
      simp only [plainArgs, Bool.and_eq_true] at ha
      exact ha
    have h1 := szE_le e hp.1
    have h2 := szMore_le rest hp.2
    simp [szArgs, argToks]
    omega

theorem szMore_le (a : ExprList) (ha : plainArgs a = true) :
    szMore a ≤ 8 * (moreToks a).length + 4 := by
  cases a with
  | nilE => simp [szMore, moreToks]
  | consE e rest =>
    have hp : plainE e = true ∧ plainArgs rest = true := by
      simp only [plainArgs, Bool.and_eq_true] at ha
      exact ha
    have h1 := szE_le e hp.1
    have h2 := szMore_le rest hp.2
    simp [szMore, moreToks]
    omega

end

open Goby.Parser in
/-- The boundary a fragment's token stream must meet on the right for
the re-parse to stop exactly there. -/
def exprBoundary (ts : Toks) : Prop :=
  (peekT ts).type ≠ "(" ∧ (peekT ts).type ≠ "DO" ∧
    (peekT ts).type ≠ "\x7b" ∧ (peekT ts).type ≠ "::" ∧
    startsExpr (peekT ts).type = false

theorem strEmptyAppend (s : String) : "" ++ s = s := by
  cases s
  rfl

theorem strAppend_assoc (a b c : String) : (a ++ b) ++ c = a ++ (b ++ c) := by
  cases a with
  | mk da =>
    cases b with
    | mk db =>
      cases c with
      | mk dc =>
        show String.mk ((da ++ db) ++ dc) = String.mk (da ++ (db ++ dc))
        rw [List.append_assoc]

theorem strFoldl_acc (l : List String) (acc : String) :
    l.foldl (fun r s => r ++ s) acc =
      acc ++ l.foldl (fun r s => r ++ s) "" := by
  induction l generalizing acc with
  | nil => simp only [List.foldl]; exact (strAppendEmpty acc).symm
  | cons a l ih =>
    simp only [List.foldl]
    rw [ih (acc ++ a), ih ("" ++ a), strAppend_assoc, strEmptyAppend]

theorem strJoin_cons (a : String) (l : List String) :
    String.join (a :: l) = a ++ String.join l := by
  show (a :: l).foldl (fun r s => r ++ s) "" = _
  simp only [List.foldl]
  rw [strFoldl_acc l ("" ++ a), strEmptyAppend]
  rfl

/-- The token an identifier-shaped word scans to, given the whole word
was already isolated. -/
theorem identToken_eq (c : Char) (cs : List Char) (line : Nat)
    (hall : ∀ x ∈ cs, isIdentC x = true) :
    identToken c cs line =
      (⟨if String.mk (c :: cs) ∈ keywords then keywordType (String.mk (c :: cs))
        else if c.isUpper then "CONSTANT" else "IDENT",
        String.mk (c :: cs), line⟩, []) := by
  unfold identToken
  rw [spanP_all isIdentC cs hall]

theorem identToken_ident (n : String) (c : Char) (cs : List Char) (line : Nat)
    (hnd : n.data = c :: cs) (hv : validIdent n = true) :
    identToken c cs line = (⟨"IDENT", n, line⟩, []) := by
  have hv' := hv
  simp only [validIdent, hnd] at hv'
  simp only [Bool.and_eq_true, Bool.not_eq_true', decide_eq_false_iff_not,
    List.all_eq_true] at hv'
  obtain ⟨⟨⟨hl, hup⟩, hall⟩, hkw⟩ := hv'
  have hmk : String.mk (c :: cs) = n := by rw [← hnd, strMkData]
  rw [identToken_eq c cs line hall, hmk, if_neg hkw, if_neg (by simp [hup])]

theorem identToken_const (n : String) (c : Char) (cs : List Char) (line : Nat)
    (hnd : n.data = c :: cs) (hv : validConst n = true) :
    identToken c cs line = (⟨"CONSTANT", n, line⟩, []) := by
  have hv' := hv
  simp only [validConst, hnd] at hv'
  simp only [Bool.and_eq_true, Bool.not_eq_true', decide_eq_false_iff_not,
    List.all_eq_true] at hv'
  obtain ⟨⟨⟨hl, hup⟩, hall⟩, hkw⟩ := hv'
  have hmk : String.mk (c :: cs) = n := by rw [← hnd, strMkData]
  rw [identToken_eq c cs line hall, hmk, if_neg hkw, if_pos hup]

/-- A printed `::`-qualification path lexes to alternating `::` and
constant tokens. -/
theorem lexPath (l : List String) (hl : ∀ x ∈ l, validConst x = true)
    (rest : List Char) :
    lexAll ((String.join (l.map (fun c => " :: " ++ c))).data ++
        ')' :: rest) 0 =
      pathToks l ++ lexAll (')' :: rest) 0 := by
  induction l with
  | nil => simp [String.join, pathToks, List.foldl]
  | cons c cs ih =>
    have hc := hl c (by simp)
    have hcs : ∀ x ∈ cs, validConst x = true := fun x hx => hl x (by simp [hx])
    rcases hcd : c.data with _ | ⟨c0, cs0⟩
    · simp [validConst, hcd] at hc
    have hfacts := hc
    simp only [validConst, hcd, Bool.and_eq_true, Bool.not_eq_true',
      decide_eq_false_iff_not, List.all_eq_true] at hfacts
    obtain ⟨⟨⟨hl0, _⟩, hall0⟩, _⟩ := hfacts
    have hbnd : (String.join (cs.map (fun c => " :: " ++ c))).data ++
        ')' :: rest = [] ∨
        ∃ d ds, (String.join (cs.map (fun c => " :: " ++ c))).data ++
          ')' :: rest = d :: ds ∧ isIdentC d = false := by
      cases cs with
      | nil => exact Or.inr ⟨')', rest, by simp [String.join, List.foldl],
          by decide⟩
      | cons c' cs' =>
        right
        rw [List.map_cons, strJoin_cons, strDataAppend, strDataAppend,
          show (" :: " : String).data = [' ', ':', ':', ' '] from rfl]
        simp only [List.append_assoc, List.cons_append, List.nil_append]
        exact ⟨' ', _, rfl, by decide⟩
    rw [List.map_cons, strJoin_cons, strDataAppend, strDataAppend]
    rw [show (" :: " : String).data = [' ', ':', ':', ' '] from rfl]
    simp only [List.append_assoc, List.cons_append, List.nil_append]
    rw [lexSpace, lexColonColon, hcd]
    rw [show c0 :: cs0 ++ ((String.join (cs.map (fun c => " :: " ++ c))).data ++
        ')' :: rest) = (c0 :: cs0) ++
        ((String.join (cs.map (fun c => " :: " ++ c))).data ++ ')' :: rest)
      from rfl]
    rw [lexWord c0 cs0 _ 0 hl0 hall0 (by simpa using hbnd),
      identToken_const c c0 cs0 0 hcd hc, ih hcs]
    simp [pathToks]

mutual

/-- The canonical text of a fragment expression lexes to its token
skeleton (and begins with a digit, letter or parenthesis). -/
theorem lexE (e : Expr) (he : plainE e = true) (rest : List Char)
    (hb : lexBoundary rest) :
    lexAll ((printExpr e).data ++ rest) 0 = toksE e ++ lexAll rest 0 ∧
      ∃ c cs, (printExpr e).data = c :: cs ∧ headChar c = true := by
  have hnid := lexBoundary_not_identC rest hb
  cases e with
  | intLit l =>
    rcases hld : l.data with _ | ⟨c, cs⟩
    · simp [plainE, hld] at he
    · have hdig := he
      simp only [plainE, hld, Bool.and_eq_true, List.all_eq_true] at hdig
      obtain ⟨hc, hcs⟩ := hdig
      refine ⟨?_, ⟨c, cs, hld, by simp [headChar, hc]⟩⟩
      show lexAll (l.data ++ rest) 0 = [tk "INT" l] ++ lexAll rest 0
      rw [hld, lexIntSeg c cs rest 0 hc hcs hb,
        show String.mk (c :: cs) = l from by rw [← hld, strMkData]]
      rfl
  | floatLit l => simp [plainE] at he
  | strLit s => simp [plainE] at he
  | boolLit b =>
    cases b with
    | true =>
      refine ⟨?_, ⟨'t', _, rfl, by decide⟩⟩
      show lexAll (('t' :: ['r', 'u', 'e']) ++ rest) 0 =
        tk "TRUE" "true" :: lexAll rest 0
      rw [lexWord 't' ['r', 'u', 'e'] rest 0 (by decide) (by decide) hnid,
        show (identToken 't' ['r', 'u', 'e'] 0).1 = tk "TRUE" "true" from by
          decide]
    | false =>
      refine ⟨?_, ⟨'f', _, rfl, by decide⟩⟩
      show lexAll (('f' :: ['a', 'l', 's', 'e']) ++ rest) 0 =
        tk "FALSE" "false" :: lexAll rest 0
      rw [lexWord 'f' ['a', 'l', 's', 'e'] rest 0 (by decide) (by decide) hnid,
        show (identToken 'f' ['a', 'l', 's', 'e'] 0).1 = tk "FALSE" "false" from
          by decide]
  | nilLit =>
    refine ⟨?_, ⟨'n', _, rfl, by decide⟩⟩
    show lexAll (('n' :: ['i', 'l']) ++ rest) 0 = tk "NIL" "nil" :: lexAll rest 0
    rw [lexWord 'n' ['i', 'l'] rest 0 (by decide) (by decide) hnid,
      show (identToken 'n' ['i', 'l'] 0).1 = tk "NIL" "nil" from by decide]
  | identE n =>
    have hv : validIdent n = true := he
    rcases hnd : n.data with _ | ⟨c, cs⟩
    · simp [validIdent, hnd] at hv
    · have hfacts := hv
      simp only [validIdent, hnd, Bool.and_eq_true, Bool.not_eq_true',
        decide_eq_false_iff_not, List.all_eq_true] at hfacts
      obtain ⟨⟨⟨hl0, _⟩, hall0⟩, _⟩ := hfacts
      refine ⟨?_, ⟨c, cs, hnd, by simp [headChar, hl0]⟩⟩
      show lexAll (n.data ++ rest) 0 = [tk "IDENT" n] ++ lexAll rest 0
      rw [hnd, lexWord c cs rest 0 hl0 hall0 hnid,
        identToken_ident n c cs 0 hnd hv]
      rfl
  | getBlockE =>
    refine ⟨?_, ⟨'g', _, rfl, by decide⟩⟩
    show lexAll (('g' :: ['e', 't', '_', 'b', 'l', 'o', 'c', 'k']) ++ rest) 0 =
      tk "GET_BLOCK" "get_block" :: lexAll rest 0
    rw [lexWord 'g' ['e', 't', '_', 'b', 'l', 'o', 'c', 'k'] rest 0 (by decide)
      (by decide) hnid,
      show (identToken 'g' ['e', 't', '_', 'b', 'l', 'o', 'c', 'k'] 0).1 =
        tk "GET_BLOCK" "get_block" from by decide]
  | constRef f r =>
    cases r with
    | nil =>
      have hv : validConst f = true := by
        simp only [plainE, Bool.and_eq_true] at he
        exact he.1
      rcases hnd : f.data with _ | ⟨c, cs⟩
      · simp [validConst, hnd] at hv
      · have hfacts := hv
        simp only [validConst, hnd, Bool.and_eq_true, Bool.not_eq_true',
          decide_eq_false_iff_not, List.all_eq_true] at hfacts
        obtain ⟨⟨⟨hl0, _⟩, hall0⟩, _⟩ := hfacts
        refine ⟨?_, ⟨c, cs, hnd, by simp [headChar, hl0]⟩⟩
        show lexAll (f.data ++ rest) 0 = [tk "CONSTANT" f] ++ lexAll rest 0
        rw [hnd, lexWord c cs rest 0 hl0 hall0 hnid,
          identToken_const f c cs 0 hnd hv]
        rfl
    | cons p ps =>
      have hv : validConst f = true ∧ ∀ x ∈ p :: ps, validConst x = true := by
        simp only [plainE, Bool.and_eq_true, List.all_eq_true] at he
        exact he
      rcases hnd : f.data with _ | ⟨c, cs⟩
      · simp [validConst, hnd] at hv
      · have hfacts := hv.1
        simp only [validConst, hnd, Bool.and_eq_true, Bool.not_eq_true',
          decide_eq_false_iff_not, List.all_eq_true] at hfacts
        obtain ⟨⟨⟨hl0, _⟩, hall0⟩, _⟩ := hfacts
        have hdata : (printExpr (.constRef f (p :: ps))).data =
            (('(' :: f.data) ++
              (String.join ((p :: ps).map (fun c => " :: " ++ c))).data) ++
              [')'] := rfl
        refine ⟨?_, ⟨'(', _, by rw [hdata]; rfl, by decide⟩⟩
        rw [hdata]
        simp only [List.append_assoc, List.cons_append, List.nil_append]
        rw [lexLParen, hnd]
        have hbw : (String.join ((p :: ps).map (fun c => " :: " ++ c))).data ++
            ')' :: rest = [] ∨
            ∃ d ds, (String.join ((p :: ps).map (fun c => " :: " ++ c))).data ++
              ')' :: rest = d :: ds ∧ isIdentC d = false := by
          right
          rw [List.map_cons, strJoin_cons, strDataAppend, strDataAppend,
            show (" :: " : String).data = [' ', ':', ':', ' '] from rfl]
          simp only [List.append_assoc, List.cons_append, List.nil_append]
          exact ⟨' ', _, rfl, by decide⟩
        rw [show c :: cs ++
            ((String.join ((p :: ps).map (fun c => " :: " ++ c))).data ++
              ')' :: rest) = (c :: cs) ++
            ((String.join ((p :: ps).map (fun c => " :: " ++ c))).data ++
              ')' :: rest) from rfl,
          lexWord c cs _ 0 hl0 hall0 hbw,
          identToken_const f c cs 0 hnd hv.1,
          lexPath (p :: ps) hv.2 rest, lexRParen]
        simp [toksE, tk]
  | selfE =>
    refine ⟨?_, ⟨'s', _, rfl, by decide⟩⟩
    show lexAll (('s' :: ['e', 'l', 'f']) ++ rest) 0 =
      tk "SELF" "self" :: lexAll rest 0
    rw [lexWord 's' ['e', 'l', 'f'] rest 0 (by decide) (by decide) hnid,
      show (identToken 's' ['e', 'l', 'f'] 0).1 = tk "SELF" "self" from by
        decide]
  | ivarE n => simp [plainE] at he
  | prefixE op e =>
    have hpe : (op = "!" ∨ op = "-") ∧ plainE e = true := by
      simp only [plainE, Bool.or_eq_true, Bool.and_eq_true,
        decide_eq_true_eq] at he
      exact he
    obtain ⟨hmain, c, cs, hcd, hhc⟩ :=
      lexE e hpe.2 (')' :: rest) (Or.inr (Or.inr (Or.inl ⟨rest, rfl⟩)))
    have hne : c ≠ '=' := headChar_ne_eq c hhc
    have hdata : (printExpr (.prefixE op e)).data =
        (('(' :: op.data) ++ (printExpr e).data) ++ [')'] := rfl
    refine ⟨?_, ⟨'(', _, by rw [hdata]; rfl, by decide⟩⟩
    rw [hdata]
    simp only [List.append_assoc, List.cons_append, List.nil_append]
    rw [lexLParen]
    rcases hpe.1 with rfl | rfl
    · rw [show ("!" : String).data = ['!'] from rfl]
      simp only [List.cons_append, List.nil_append]
      rw [hcd]
      simp only [List.cons_append]
      rw [lexBangTok c _ 0 hne, ← List.cons_append, ← hcd, hmain, lexRParen]
      simp [toksE, tk]
    · rw [show ("-" : String).data = ['-'] from rfl]
      simp only [List.cons_append, List.nil_append]
      rw [hcd]
      simp only [List.cons_append]
      rw [lexMinusTok c _ 0 hne, ← List.cons_append, ← hcd, hmain, lexRParen]
      simp [toksE, tk]
  | infixE op l r =>
    have hp : isBinOp op = true ∧ plainE l = true ∧ plainE r = true := by
      simp only [plainE, Bool.and_eq_true] at he
      exact ⟨he.1.1, he.1.2, he.2⟩
    obtain ⟨hmainR, _⟩ :=
      lexE r hp.2.2 (')' :: rest) (Or.inr (Or.inr (Or.inl ⟨rest, rfl⟩)))
    obtain ⟨hmainL, _⟩ :=
      lexE l hp.2.1
        (' ' :: (op.data ++ (' ' :: ((printExpr r).data ++ ')' :: rest))))
        (Or.inr (Or.inl ⟨_, rfl⟩))
    have hdata : (printExpr (.infixE op l r)).data =
        ((((('(' :: (printExpr l).data) ++ [' ']) ++ op.data) ++ [' ']) ++
          (printExpr r).data) ++ [')'] := rfl
    refine ⟨?_, ⟨'(', _, by rw [hdata]; rfl, by decide⟩⟩
    rw [hdata]
    simp only [List.append_assoc, List.cons_append, List.nil_append]
    rw [lexLParen, hmainL, lexSpace, lexOpSp op hp.1 _ 0, hmainR, lexRParen]
    simp [toksE, tk]
  | assignE t v => simp [plainE] at he
  | callE recv m args blk =>
    cases blk with
    | someB ps body => simp [plainE] at he
    | noneB =>
      have hp : plainRecv recv = true ∧ validIdent m = true ∧
          plainArgs args = true := by
        simp only [plainE, Bool.and_eq_true] at he
        exact ⟨he.1.1.1, he.1.1.2, he.1.2⟩
      rcases hmd : m.data with _ | ⟨cm, csm⟩
      · have := hp.2.1
        simp [validIdent, hmd] at this
      · have hmfacts := hp.2.1
        simp only [validIdent, hmd, Bool.and_eq_true, Bool.not_eq_true',
          decide_eq_false_iff_not, List.all_eq_true] at hmfacts
        obtain ⟨⟨⟨hlm, _⟩, hallm⟩, _⟩ := hmfacts
        have hdata : (printExpr (.callE recv m args .noneB)).data =
            (((((printRecv recv).data ++ ['.']) ++ m.data) ++ ['(']) ++
              (joinComma (printArgs args)).data) ++ [')'] := by
          rw [show printExpr (.callE recv m args .noneB) =
            (((((printRecv recv ++ ".") ++ m) ++ "(") ++
              joinComma (printArgs args)) ++ ")") ++ "" from rfl,
            strAppendEmpty]
          rfl
        obtain ⟨hmainRecv, c, cs, hcd, hhc⟩ :=
          lexRecvT recv hp.1
            ('.' :: (m.data ++ ('(' ::
              ((joinComma (printArgs args)).data ++ ')' :: rest))))
            (Or.inr (Or.inr (Or.inr (Or.inr
              ⟨cm, csm ++ ('(' ::
                ((joinComma (printArgs args)).data ++ ')' :: rest)),
                by rw [hmd]; rfl, hlm⟩))))
        refine ⟨?_, ⟨c, cs ++ (['.'] ++ m.data ++ ['('] ++
          (joinComma (printArgs args)).data ++ [')']),
          by rw [hdata, hcd]; simp, hhc⟩⟩
        rw [hdata]
        simp only [List.append_assoc, List.cons_append, List.nil_append]
        rw [hmainRecv]
        have hdot : ∀ ds, m.data ++ ('(' ::
            ((joinComma (printArgs args)).data ++ ')' :: rest)) ≠
            '.' :: ds := by
          intro ds hds
          rw [hmd] at hds
          injection hds with h1 _
          exact absurd (h1 ▸ hlm) (by decide)
        rw [lexDot _ 0 hdot, hmd]
        rw [show cm :: csm ++ ('(' ::
            ((joinComma (printArgs args)).data ++ ')' :: rest)) =
          (cm :: csm) ++ ('(' ::
            ((joinComma (printArgs args)).data ++ ')' :: rest)) from rfl,
          lexWord cm csm _ 0 hlm hallm (Or.inr ⟨'(', _, rfl, by decide⟩),
          identToken_ident m cm csm 0 hmd hp.2.1,
          lexLParen, lexArgsT args hp.2.2 rest, lexRParen]
        simp [toksE, tk]
  | yieldE args =>
    have hdata : (printExpr (.yieldE args)).data =
        (['y', 'i', 'e', 'l', 'd', '('] ++
          (joinComma (printArgs args)).data) ++ [')'] := rfl
    refine ⟨?_, ⟨'y', _, by rw [hdata]; rfl, by decide⟩⟩
    rw [hdata]
    simp only [List.append_assoc, List.cons_append, List.nil_append]
    rw [show 'y' :: 'i' :: 'e' :: 'l' :: 'd' :: '(' ::
        ((joinComma (printArgs args)).data ++ ')' :: rest) =
      ('y' :: ['i', 'e', 'l', 'd']) ++ ('(' ::
        ((joinComma (printArgs args)).data ++ ')' :: rest)) from rfl,
      lexWord 'y' ['i', 'e', 'l', 'd'] _ 0 (by decide) (by decide)
        (Or.inr ⟨'(', _, rfl, by decide⟩),
      show (identToken 'y' ['i', 'e', 'l', 'd'] 0).1 = tk "YIELD" "yield" from
        by decide,
      lexLParen, lexArgsT args he rest, lexRParen]
    simp [toksE, tk]

theorem lexRecvT (r : OptRecv) (hr : plainRecv r = true) (rest : List Char)
    (hb : lexBoundary rest) :
    lexAll ((printRecv r).data ++ rest) 0 = recvToks r ++ lexAll rest 0 ∧
      ∃ c cs, (printRecv r).data = c :: cs ∧ headChar c = true := by
  cases r with
  | implicitSelf =>
    refine ⟨?_, ⟨'s', _, rfl, by decide⟩⟩
    show lexAll (('s' :: ['e', 'l', 'f']) ++ rest) 0 =
      tk "SELF" "self" :: lexAll rest 0
    rw [lexWord 's' ['e', 'l', 'f'] rest 0 (by decide) (by decide)
      (lexBoundary_not_identC rest hb),
      show (identToken 's' ['e', 'l', 'f'] 0).1 = tk "SELF" "self" from by
        decide]
  | recv e => exact lexE e hr rest hb

theorem lexArgsT (a : ExprList) (ha : plainArgs a = true) (rest : List Char) :
    lexAll ((joinComma (printArgs a)).data ++ ')' :: rest) 0 =
      argToks a ++ lexAll (')' :: rest) 0 := by
  cases a with
  | nilE => rfl
  | consE a as =>
    have hp : plainE a = true ∧ plainArgs as = true := by
      simp only [plainArgs, Bool.and_eq_true] at ha
      exact ha
    cases as with
    | nilE =>
      rw [show joinComma (printArgs (.consE a .nilE)) = printExpr a from rfl,
        (lexE a hp.1 (')' :: rest) (Or.inr (Or.inr (Or.inl ⟨rest, rfl⟩)))).1]
      simp [argToks, moreToks]
    | consE b bs =>
      rw [show joinComma (printArgs (.consE a (.consE b bs))) =
          (printExpr a ++ ", ") ++ joinComma (printArgs (.consE b bs)) from rfl,
        strDataAppend, strDataAppend,
        show (", " : String).data = [',', ' '] from rfl]
      simp only [List.append_assoc, List.cons_append, List.nil_append]
      rw [(lexE a hp.1 (',' :: (' ' ::
          ((joinComma (printArgs (.consE b bs))).data ++ ')' :: rest)))
          (Or.inr (Or.inr (Or.inr (Or.inl ⟨_, rfl⟩))))).1,
        lexComma, lexSpace, lexArgsT (.consE b bs) hp.2 rest]
      simp [argToks, moreToks, tk]

end

open Goby.Parser in
/-- The infix loop stops immediately on a non-operator token. -/
theorem parseInfix_stop (f : Nat) (hf : 1 ≤ f) (prec : Nat) (left : Expr)
    (ts : Toks) (h : precOf (peekT ts).type = 0) :
    parseInfix f prec left ts = .ok (left, ts) := by
  obtain ⟨f', rfl⟩ : ∃ f', f = f' + 1 := ⟨f - 1, by omega⟩
  simp [parseInfix, h]

/-- The full lexing of a printed fragment expression: its token skeleton
and the closing `EOF`. -/
theorem lexTop (e : Expr) (he : plainE e = true) :
    tokenize (printExpr e) = toksE e ++ [eofTok 0] := by
  have h := (lexE e he [] (Or.inl rfl)).1
  rw [List.append_nil] at h
  rw [show (lexAll [] 0) = [eofTok 0] from lexAll_end rfl] at h
  exact h

theorem exprBoundary_cons (t : Token) (ts : Toks)
    (h1 : t.type ≠ "(") (h2 : t.type ≠ "DO") (h3 : t.type ≠ "\x7b")
    (h4 : t.type ≠ "::") (h5 : startsExpr t.type = false) :
    exprBoundary (t :: ts) := ⟨h1, h2, h3, h4, h5⟩

/-- No block follows when the next token opens none. -/
theorem parseBlockOpt_none (f : Nat) (hf : 1 ≤ f) (ts : Toks)
    (h1 : (peekT ts).type ≠ "DO") (h2 : (peekT ts).type ≠ "\x7b") :
    parseBlockOpt f ts = .ok (.noneB, ts) := by
  obtain ⟨f', rfl⟩ : ∃ f', f = f' + 1 := ⟨f - 1, by omega⟩
  simp [parseBlockOpt, h1, h2]

/-- Re-parse of a printed qualification path. -/
theorem pathCont (l : List String) : ∀ (acc : List String) (rest : Toks),
    (peekT rest).type ≠ "::" →
    ∀ f, l.length + 1 ≤ f →
      parseConstPath f acc (pathToks l ++ rest) =
        .ok (l.reverse ++ acc, rest) := by
  induction l with
  | nil =>
    intro acc rest hne f hf
    obtain ⟨f', rfl⟩ : ∃ f', f = f' + 1 := ⟨f - 1, by omega⟩
    simp [parseConstPath, pathToks, hne]
  | cons c cs ih =>
    intro acc rest hne f hf
    obtain ⟨f', rfl⟩ : ∃ f', f = f' + 1 := ⟨f - 1, by omega⟩
    show parseConstPath f' (c :: acc) (pathToks cs ++ rest) =
      .ok ((c :: cs).reverse ++ acc, rest)
    rw [ih (c :: acc) rest hne f' (by simp [List.length_cons] at hf; omega)]
    simp

/-- One step of the infix loop, on an operator binding tighter than the
context: the generic unfolding. -/
theorem parseInfix_opgo (f prec : Nat) (left : Expr) (t : Token) (ts : Toks)
    (hne : ¬(precOf t.type = 0 ∨ precOf t.type ≤ prec)) (hdot : t.type ≠ ".") :
    parseInfix (f + 1) prec left (t :: ts) =
      (match parseExpr f (if isRightAssoc t.type then precOf t.type - 1
          else precOf t.type) ((t :: ts).drop 1) with
       | .error e => .error e
       | .ok (rhs, ts1) =>
         parseInfix f prec (if t.type = "=" then Expr.assignE left rhs
           else Expr.infixE t.literal left rhs) ts1) := by
  simp only [parseInfix, peekT]
  rw [if_neg hne, if_neg hdot]

/-- One step of the infix loop, on the call dot: the generic
unfolding. -/
theorem parseInfix_dotgo (f prec : Nat) (left : Expr) (t : Token) (ts : Toks)
    (hne : ¬(precOf t.type = 0 ∨ precOf t.type ≤ prec)) (hdot : t.type = ".") :
    parseInfix (f + 1) prec left (t :: ts) =
      (match expectTok "IDENT" ((t :: ts).drop 1) with
       | .error e => .error e
       | .ok (mTok, ts1) =>
         match (if (peekT ts1).type = "(" ∧ (peekT ts1).line = mTok.line then
             parseCallArgs f (ts1.drop 1)
           else (.ok (.nilE, ts1) : PRes ExprList)) with
         | .error e => .error e
         | .ok (args, ts2) =>
           match parseBlockOpt f ts2 with
           | .error e => .error e
           | .ok (blk, ts3) =>
             parseInfix f prec (.callE (.recv left) mTok.literal args blk)
               ts3) := by
  simp only [parseInfix, peekT]
  rw [if_neg hne, if_pos hdot]

/-- One step of the infix loop over a fragment operator at top
precedence. -/
theorem parseInfix_binop (op : String) (hop : isBinOp op = true)
    (left rhs : Expr) (ts2 rest2 : Toks) (f₁ : Nat)
    (hparse : parseExpr f₁
      (if isRightAssoc op then precOf op - 1 else precOf op) ts2 =
      .ok (rhs, rest2))
    (hstop : precOf (peekT rest2).type = 0) (hf : 1 ≤ f₁) :
    parseInfix (f₁ + 1) 0 left (tk op op :: ts2) =
      .ok (.infixE op left rhs, rest2) := by
  obtain ⟨hp0, hple7, hdot, heq, _⟩ := binOp_facts op hop
  have hne : ¬(precOf (tk op op).type = 0 ∨ precOf (tk op op).type ≤ 0) := by
    show ¬(precOf op = 0 ∨ precOf op ≤ 0)
    rintro (h | h) <;> omega
  rw [parseInfix_opgo f₁ 0 left (tk op op) ts2 hne
    (show (tk op op).type ≠ "." from hdot)]
  rw [show (tk op op).type = op from rfl,
    show (tk op op).literal = op from rfl,
    show (tk op op :: ts2).drop 1 = ts2 from rfl]
  rw [hparse]
  show parseInfix f₁ 0
    (if op = "=" then Expr.assignE left rhs else Expr.infixE op left rhs)
    rest2 = _
  rw [if_neg heq]
  exact parseInfix_stop f₁ hf 0 _ rest2 hstop

/-- One step of the infix loop through a printed `.m(...)` call. -/
theorem parseInfix_dotstep (prec : Nat) (hprec : prec < 10) (left : Expr)
    (m : String) (aN : ExprList) (ats rest : Toks) (f₁ : Nat)
    (hargs : parseCallArgs f₁ (ats ++ tk ")" ")" :: rest) = .ok (aN, rest))
    (hbDO : (peekT rest).type ≠ "DO") (hbLB : (peekT rest).type ≠ "\x7b")
    (hf : 1 ≤ f₁) (R : PRes Expr)
    (hk : parseInfix f₁ prec (.callE (.recv left) m aN .noneB) rest = R) :
    parseInfix (f₁ + 1) prec left
      (tk "." "." :: tk "IDENT" m :: tk "(" "(" ::
        (ats ++ tk ")" ")" :: rest)) = R := by
  have hne : ¬(precOf (tk "." ".").type = 0 ∨
      precOf (tk "." ".").type ≤ prec) := by
    show ¬((10 : Nat) = 0 ∨ (10 : Nat) ≤ prec)
    rintro (h | h) <;> omega
  rw [parseInfix_dotgo f₁ prec left (tk "." ".")
    (tk "IDENT" m :: tk "(" "(" :: (ats ++ tk ")" ")" :: rest)) hne rfl]
  rw [show expectTok "IDENT" ((tk "." "." :: tk "IDENT" m :: tk "(" "(" ::
      (ats ++ tk ")" ")" :: rest)).drop 1) =
    .ok (tk "IDENT" m, tk "(" "(" :: (ats ++ tk ")" ")" :: rest)) from rfl]
  show (match (if (peekT (tk "(" "(" :: (ats ++ tk ")" ")" :: rest))).type =
      "(" ∧ (peekT (tk "(" "(" :: (ats ++ tk ")" ")" :: rest))).line =
        (tk "IDENT" m).line then
      parseCallArgs f₁ ((tk "(" "(" :: (ats ++ tk ")" ")" :: rest)).drop 1)
    else (.ok (.nilE, tk "(" "(" :: (ats ++ tk ")" ")" :: rest)) :
      PRes ExprList)) with
    | .error e => .error e
    | .ok (args, ts2) =>
      match parseBlockOpt f₁ ts2 with
      | .error e => .error e
      | .ok (blk, ts3) =>
        parseInfix f₁ prec
          (.callE (.recv left) (tk "IDENT" m).literal args blk) ts3) = R
  rw [if_pos ⟨rfl, rfl⟩]
  rw [show (tk "(" "(" :: (ats ++ tk ")" ")" :: rest)).drop 1 =
    ats ++ tk ")" ")" :: rest from rfl]
  rw [hargs]
  show (match parseBlockOpt f₁ rest with
    | .error e => .error e
    | .ok (blk, ts3) =>
      parseInfix f₁ prec
        (.callE (.recv left) (tk "IDENT" m).literal aN blk) ts3) = R
  rw [parseBlockOpt_none f₁ hf rest hbDO hbLB]
  exact hk

theorem parseExpr_go (f prec : Nat) (ts : Toks) :
    parseExpr (f + 1) prec ts =
      (match parsePrefix f ts with
       | .error e => .error e
       | .ok (left, ts') => parseInfix f prec left ts') := by
  simp only [parseExpr]

mutual

/-- The re-parse of a fragment expression's token skeleton, in
continuation form: it produces the normalized expression and hands the
rest of the stream to the infix loop. -/
theorem exprCont (e : Expr) (he : plainE e = true) (prec : Nat)
    (hprec : prec < 10) (rest : Toks) (hb : exprBoundary rest)
    (G : Nat) (R : PRes Expr)
    (hk : ∀ f, G ≤ f → parseInfix f prec (normE e) rest = R) :
    ∀ fuel, szE e + G ≤ fuel →
      parseExpr fuel prec (toksE e ++ rest) = R := by
  cases e with
  | intLit l =>
    intro fuel hfuel
    simp only [szE] at hfuel
    obtain ⟨fu, rfl⟩ : ∃ fu, fuel = fu + 1 := ⟨fuel - 1, by omega⟩
    simp only [toksE, List.cons_append, List.nil_append]
    rw [parseExpr_go]
    obtain ⟨fv, rfl⟩ : ∃ fv, fu = fv + 1 := ⟨fu - 1, by omega⟩
    have hpp : parsePrefix (fv + 1) (tk "INT" l :: rest) =
        .ok (.intLit l, rest) := by simp [parsePrefix, tk]
    rw [hpp]
    exact hk (fv + 1) (by omega)
  | floatLit l => simp [plainE] at he
  | strLit s => simp [plainE] at he
  | boolLit b =>
    intro fuel hfuel
    simp only [szE] at hfuel
    obtain ⟨fu, rfl⟩ : ∃ fu, fuel = fu + 1 := ⟨fuel - 1, by omega⟩
    obtain ⟨fv, rfl⟩ : ∃ fv, fu = fv + 1 := ⟨fu - 1, by omega⟩
    cases b with
    | true =>
      rw [show toksE (.boolLit true) ++ rest = tk "TRUE" "true" :: rest from
        rfl, parseExpr_go]
      have hpp : parsePrefix (fv + 1) (tk "TRUE" "true" :: rest) =
          .ok (.boolLit true, rest) := by simp [parsePrefix, tk]
      rw [hpp]
      exact hk (fv + 1) (by omega)
    | false =>
      rw [show toksE (.boolLit false) ++ rest = tk "FALSE" "false" :: rest from
        rfl, parseExpr_go]
      have hpp : parsePrefix (fv + 1) (tk "FALSE" "false" :: rest) =
          .ok (.boolLit false, rest) := by simp [parsePrefix, tk]
      rw [hpp]
      exact hk (fv + 1) (by omega)
  | nilLit =>
    intro fuel hfuel
    simp only [szE] at hfuel
    obtain ⟨fu, rfl⟩ : ∃ fu, fuel = fu + 1 := ⟨fuel - 1, by omega⟩
    simp only [toksE, List.cons_append, List.nil_append]
    rw [parseExpr_go]
    obtain ⟨fv, rfl⟩ : ∃ fv, fu = fv + 1 := ⟨fu - 1, by omega⟩
    have hpp : parsePrefix (fv + 1) (tk "NIL" "nil" :: rest) =
        .ok (.nilLit, rest) := by simp [parsePrefix, tk]
    rw [hpp]
    exact hk (fv + 1) (by omega)
  | identE n =>
    intro fuel hfuel
    simp only [szE] at hfuel
    obtain ⟨fu, rfl⟩ : ∃ fu, fuel = fu + 1 := ⟨fuel - 1, by omega⟩
    simp only [toksE, List.cons_append, List.nil_append]
    rw [parseExpr_go]
    obtain ⟨fv, rfl⟩ : ∃ fv, fu = fv + 1 := ⟨fu - 1, by omega⟩
    have hpp : parsePrefix (fv + 1) (tk "IDENT" n :: rest) =
        .ok (.identE n, rest) := by
      simp [parsePrefix, tk, hb.1, hb.2.1, hb.2.2.2.2]
    rw [hpp]
    exact hk (fv + 1) (by omega)
  | getBlockE =>
    intro fuel hfuel
    simp only [szE] at hfuel
    obtain ⟨fu, rfl⟩ : ∃ fu, fuel = fu + 1 := ⟨fuel - 1, by omega⟩
    simp only [toksE, List.cons_append, List.nil_append]
    rw [parseExpr_go]
    obtain ⟨fv, rfl⟩ : ∃ fv, fu = fv + 1 := ⟨fu - 1, by omega⟩
    have hpp : parsePrefix (fv + 1) (tk "GET_BLOCK" "get_block" :: rest) =
        .ok (.getBlockE, rest) := by simp [parsePrefix, tk]
    rw [hpp]
    exact hk (fv + 1) (by omega)
  | selfE =>
    intro fuel hfuel
    simp only [szE] at hfuel
    obtain ⟨fu, rfl⟩ : ∃ fu, fuel = fu + 1 := ⟨fuel - 1, by omega⟩
    simp only [toksE, List.cons_append, List.nil_append]
    rw [parseExpr_go]
    obtain ⟨fv, rfl⟩ : ∃ fv, fu = fv + 1 := ⟨fu - 1, by omega⟩
    have hpp : parsePrefix (fv + 1) (tk "SELF" "self" :: rest) =
        .ok (.selfE, rest) := by simp [parsePrefix, tk]
    rw [hpp]
    exact hk (fv + 1) (by omega)
  | ivarE n => simp [plainE] at he
  | constRef f r =>
    cases r with
    | nil =>
      intro fuel hfuel
      simp only [szE] at hfuel
      obtain ⟨fu, rfl⟩ : ∃ fu, fuel = fu + 1 := ⟨fuel - 1, by omega⟩
      simp only [toksE, List.cons_append, List.nil_append]
      rw [parseExpr_go]
      obtain ⟨fv, rfl⟩ : ∃ fv, fu = fv + 1 := ⟨fu - 1, by omega⟩
      have hcp : parseConstPath fv [] rest = .ok ([], rest) := by
        have h := pathCont [] [] rest hb.2.2.2.1 fv
          (by simp only [List.length_nil]; omega)
        simpa [pathToks] using h
      have hpp : parsePrefix (fv + 1) (tk "CONSTANT" f :: rest) =
          .ok (.constRef f [], rest) := by
        simp [parsePrefix, tk, hcp]
      rw [hpp]
      exact hk (fv + 1) (by omega)
    | cons p ps =>
      intro fuel hfuel
      simp only [szE] at hfuel
      obtain ⟨fu, rfl⟩ : ∃ fu, fuel = fu + 1 := ⟨fuel - 1, by omega⟩
      obtain ⟨fv, rfl⟩ : ∃ fv, fu = fv + 1 := ⟨fu - 1, by omega⟩
      obtain ⟨fw, rfl⟩ : ∃ fw, fv = fw + 1 := ⟨fv - 1, by omega⟩
      obtain ⟨fx, rfl⟩ : ∃ fx, fw = fx + 1 := ⟨fw - 1, by omega⟩
      simp only [toksE, List.cons_append, List.nil_append, List.append_assoc]
      rw [parseExpr_go]
      have hcp : parseConstPath fx []
          (pathToks (p :: ps) ++ (tk ")" ")" :: rest)) =
          .ok ((p :: ps).reverse, tk ")" ")" :: rest) := by
        have h := pathCont (p :: ps) [] (tk ")" ")" :: rest)
          (by simp [peekT, tk]) fx (by omega)
        simpa using h
      have hppc : parsePrefix (fx + 1) (tk "CONSTANT" f ::
          (pathToks (p :: ps) ++ (tk ")" ")" :: rest))) =
          .ok (.constRef f (p :: ps), tk ")" ")" :: rest) := by
        simp [parsePrefix, tk, hcp]
      have hinner : parseExpr (fx + 1 + 1) 0 (tk "CONSTANT" f ::
          (pathToks (p :: ps) ++ (tk ")" ")" :: rest))) =
          .ok (.constRef f (p :: ps), tk ")" ")" :: rest) := by
        rw [parseExpr_go, hppc]
        exact parseInfix_stop (fx + 1) (by omega) 0 _ _
          (by simp [peekT, tk, precOf])
      have hpp : parsePrefix (fx + 1 + 1 + 1) (tk "(" "(" ::
          tk "CONSTANT" f :: (pathToks (p :: ps) ++ (tk ")" ")" :: rest))) =
          .ok (.constRef f (p :: ps), rest) := by
        simp [parsePrefix, tk, hinner, expectTok]
      rw [hpp]
      exact hk (fx + 1 + 1 + 1) (by omega)
  | prefixE op e =>
    have hpe : (op = "!" ∨ op = "-") ∧ plainE e = true := by
      simp only [plainE, Bool.or_eq_true, Bool.and_eq_true,
        decide_eq_true_eq] at he
      exact he
    intro fuel hfuel
    simp only [szE] at hfuel
    obtain ⟨fu, rfl⟩ : ∃ fu, fuel = fu + 1 := ⟨fuel - 1, by omega⟩
    obtain ⟨fv, rfl⟩ : ∃ fv, fu = fv + 1 := ⟨fu - 1, by omega⟩
    obtain ⟨fw, rfl⟩ : ∃ fw, fv = fw + 1 := ⟨fv - 1, by omega⟩
    obtain ⟨fx, rfl⟩ : ∃ fx, fw = fx + 1 := ⟨fw - 1, by omega⟩
    simp only [toksE, List.cons_append, List.nil_append, List.append_assoc]
    rw [parseExpr_go]
    have hstop : ∀ f, 1 ≤ f →
        parseInfix f 8 (normE e) (tk ")" ")" :: rest) =
          .ok (normE e, tk ")" ")" :: rest) :=
      fun f hf => parseInfix_stop f hf 8 _ _ (by simp [peekT, tk, precOf])
    have hbnd : exprBoundary (tk ")" ")" :: rest) :=
      exprBoundary_cons _ _ (by decide) (by decide) (by decide) (by decide)
        (by decide)
    have hsub := exprCont e hpe.2 8 (by omega) (tk ")" ")" :: rest) hbnd
      1 (.ok (normE e, tk ")" ")" :: rest)) hstop fx (by omega)
    rcases hpe.1 with rfl | rfl
    · have hppi : parsePrefix (fx + 1) (tk "!" "!" ::
          (toksE e ++ (tk ")" ")" :: rest))) =
          .ok (.prefixE "!" (normE e), tk ")" ")" :: rest) := by
        simp [parsePrefix, tk, hsub]
      have hinner : parseExpr (fx + 1 + 1) 0 (tk "!" "!" ::
          (toksE e ++ (tk ")" ")" :: rest))) =
          .ok (.prefixE "!" (normE e), tk ")" ")" :: rest) := by
        rw [parseExpr_go, hppi]
        exact parseInfix_stop (fx + 1) (by omega) 0 _ _
          (by simp [peekT, tk, precOf])
      have hpp : parsePrefix (fx + 1 + 1 + 1) (tk "(" "(" :: tk "!" "!" ::
          (toksE e ++ (tk ")" ")" :: rest))) =
          .ok (.prefixE "!" (normE e), rest) := by
        simp [parsePrefix, tk, hinner, expectTok]
      rw [hpp]
      exact hk (fx + 1 + 1 + 1) (by omega)
    · have hppi : parsePrefix (fx + 1) (tk "-" "-" ::
          (toksE e ++ (tk ")" ")" :: rest))) =
          .ok (.prefixE "-" (normE e), tk ")" ")" :: rest) := by
        simp [parsePrefix, tk, hsub]
      have hinner : parseExpr (fx + 1 + 1) 0 (tk "-" "-" ::
          (toksE e ++ (tk ")" ")" :: rest))) =
          .ok (.prefixE "-" (normE e), tk ")" ")" :: rest) := by
        rw [parseExpr_go, hppi]
        exact parseInfix_stop (fx + 1) (by omega) 0 _ _
          (by simp [peekT, tk, precOf])
      have hpp : parsePrefix (fx + 1 + 1 + 1) (tk "(" "(" :: tk "-" "-" ::
          (toksE e ++ (tk ")" ")" :: rest))) =
          .ok (.prefixE "-" (normE e), rest) := by
        simp [parsePrefix, tk, hinner, expectTok]
      rw [hpp]
      exact hk (fx + 1 + 1 + 1) (by omega)
  | infixE op l r =>
    have hp : isBinOp op = true ∧ plainE l = true ∧ plainE r = true := by
      simp only [plainE, Bool.and_eq_true] at he
      exact ⟨he.1.1, he.1.2, he.2⟩
    obtain ⟨hp0, hple7, hdotne, heqne, hlp, hdo, hlb, hcc, hse⟩ :=
      binOp_facts op hp.1
    intro fuel hfuel
    simp only [szE] at hfuel
    obtain ⟨fu, rfl⟩ : ∃ fu, fuel = fu + 1 := ⟨fuel - 1, by omega⟩
    simp only [toksE, List.cons_append, List.nil_append, List.append_assoc]
    rw [parseExpr_go]
    obtain ⟨fv, rfl⟩ : ∃ fv, fu = fv + 1 := ⟨fu - 1, by omega⟩
    have hbndR : exprBoundary (tk ")" ")" :: rest) :=
      exprBoundary_cons _ _ (by decide) (by decide) (by decide) (by decide)
        (by decide)
    have hstopR : ∀ f, 1 ≤ f →
        parseInfix f (if isRightAssoc op then precOf op - 1 else precOf op)
          (normE r) (tk ")" ")" :: rest) =
          .ok (normE r, tk ")" ")" :: rest) :=
      fun f hf => parseInfix_stop f hf _ _ _ (by simp [peekT, precOf])
    have hkl : ∀ f, szE r + 3 ≤ f →
        parseInfix f 0 (normE l)
          (tk op op :: (toksE r ++ (tk ")" ")" :: rest))) =
          .ok (.infixE op (normE l) (normE r), tk ")" ")" :: rest) := by
      intro f hf
      obtain ⟨f₁, rfl⟩ : ∃ f₁, f = f₁ + 1 := ⟨f - 1, by omega⟩
      exact parseInfix_binop op hp.1 (normE l) (normE r) _ _ f₁
        (exprCont r hp.2.2 _ (by split <;> omega) (tk ")" ")" :: rest) hbndR
          1 _ hstopR f₁ (by omega))
        (by simp [peekT, precOf]) (by omega)
    have hinner := exprCont l hp.2.1 0 (by omega)
      (tk op op :: (toksE r ++ (tk ")" ")" :: rest)))
      (exprBoundary_cons _ _ hlp hdo hlb hcc hse)
      (szE r + 3) _ hkl fv (by omega)
    have hpp : parsePrefix (fv + 1) (tk "(" "(" ::
        (toksE l ++ (tk op op :: (toksE r ++ (tk ")" ")" :: rest))))) =
        .ok (.infixE op (normE l) (normE r), rest) := by
      simp [parsePrefix, tk, hinner, expectTok]
    rw [hpp]
    exact hk (fv + 1) (by omega)
  | assignE t v => simp [plainE] at he
  | callE recv m args blk =>
    cases blk with
    | someB ps body => simp [plainE] at he
    | noneB =>
      have hp : plainRecv recv = true ∧ validIdent m = true ∧
          plainArgs args = true := by
        simp only [plainE, Bool.and_eq_true] at he
        exact ⟨he.1.1.1, he.1.1.2, he.1.2⟩
      intro fuel hfuel
      simp only [szE] at hfuel
      simp only [toksE, List.cons_append, List.nil_append, List.append_assoc]
      have hk₂ : ∀ f, szArgs args + G + 3 ≤ f →
          parseInfix f prec (normRecv recv)
            (tk "." "." :: tk "IDENT" m :: tk "(" "(" ::
              (argToks args ++ tk ")" ")" :: rest)) = R := by
        intro f hf
        obtain ⟨f₁, rfl⟩ : ∃ f₁, f = f₁ + 1 := ⟨f - 1, by omega⟩
        exact parseInfix_dotstep prec hprec (normRecv recv) m (normArgs args)
          (argToks args) rest f₁
          (argsCont args hp.2.2 rest f₁ (by omega))
          hb.2.1 hb.2.2.1 (by omega) R (hk f₁ (by omega))
      have h := recvCont recv hp.1 prec hprec
        (tk "." "." :: tk "IDENT" m :: tk "(" "(" ::
          (argToks args ++ tk ")" ")" :: rest))
        (exprBoundary_cons _ _ (by decide) (by decide) (by decide) (by decide)
          (by decide))
        (szArgs args + G + 3) R hk₂ fuel (by omega)
      exact h
  | yieldE args =>
    intro fuel hfuel
    simp only [szE] at hfuel
    obtain ⟨fu, rfl⟩ : ∃ fu, fuel = fu + 1 := ⟨fuel - 1, by omega⟩
    simp only [toksE, List.cons_append, List.nil_append, List.append_assoc]
    rw [parseExpr_go]
    obtain ⟨fv, rfl⟩ : ∃ fv, fu = fv + 1 := ⟨fu - 1, by omega⟩
    have hargs := argsCont args he rest fv (by omega)
    have hpp : parsePrefix (fv + 1) (tk "YIELD" "yield" :: tk "(" "(" ::
        (argToks args ++ tk ")" ")" :: rest)) =
        .ok (.yieldE (normArgs args), rest) := by
      simp [parsePrefix, peekT, tk, hargs]
    rw [hpp]
    exact hk (fv + 1) (by omega)

theorem recvCont (r : OptRecv) (hr : plainRecv r = true) (prec : Nat)
    (hprec : prec < 10) (rest : Toks) (hb : exprBoundary rest)
    (G : Nat) (R : PRes Expr)
    (hk : ∀ f, G ≤ f → parseInfix f prec (normRecv r) rest = R) :
    ∀ fuel, szRecv r + G ≤ fuel →
      parseExpr fuel prec (recvToks r ++ rest) = R := by
  cases r with
  | implicitSelf =>
    intro fuel hfuel
    simp only [szRecv] at hfuel
    obtain ⟨fu, rfl⟩ : ∃ fu, fuel = fu + 1 := ⟨fuel - 1, by omega⟩
    simp only [recvToks, List.cons_append, List.nil_append]
    rw [parseExpr_go]
    obtain ⟨fv, rfl⟩ : ∃ fv, fu = fv + 1 := ⟨fu - 1, by omega⟩
    have hpp : parsePrefix (fv + 1) (tk "SELF" "self" :: rest) =
        .ok (.selfE, rest) := by simp [parsePrefix, tk]
    rw [hpp]
    exact hk (fv + 1) (by omega)
  | recv e => exact exprCont e hr prec hprec rest hb G R hk

theorem argsCont (a : ExprList) (ha : plainArgs a = true) (rest : Toks) :
    ∀ fuel, szArgs a ≤ fuel →
      parseCallArgs fuel (argToks a ++ tk ")" ")" :: rest) =
        .ok (normArgs a, rest) := by
  cases a with
  | nilE =>
    intro fuel hfuel
    simp only [szArgs] at hfuel
    obtain ⟨f', rfl⟩ : ∃ f', fuel = f' + 1 := ⟨fuel - 1, by omega⟩
    simp only [argToks, List.nil_append]
    simp [parseCallArgs, peekT, tk, normArgs]
  | consE a as =>
    have hp : plainE a = true ∧ plainArgs as = true := by
      simp only [plainArgs, Bool.and_eq_true] at ha
      exact ha
    intro fuel hfuel
    simp only [szArgs] at hfuel
    obtain ⟨f', rfl⟩ : ∃ f', fuel = f' + 1 := ⟨fuel - 1, by omega⟩
    simp only [argToks, List.append_assoc]
    obtain ⟨h, t, hht, hok, hl⟩ := toksE_head a hp.1
    have hne : (peekT (toksE a ++ (moreToks as ++ tk ")" ")" :: rest))).type ≠
        ")" := by
      rw [hht]
      simpa [peekT] using (headOK_facts h.type hok).2.2.2.2.2.2
    have hbndA : exprBoundary (moreToks as ++ tk ")" ")" :: rest) := by
      cases as with
      | nilE =>
        simp only [moreToks, List.nil_append]
        exact exprBoundary_cons _ _ (by decide) (by decide) (by decide)
          (by decide) (by decide)
      | consE b bs =>
        simp only [moreToks, List.cons_append]
        exact exprBoundary_cons _ _ (by decide) (by decide) (by decide)
          (by decide) (by decide)
    have hstopA : ∀ f, 1 ≤ f →
        parseInfix f 0 (normE a) (moreToks as ++ tk ")" ")" :: rest) =
          .ok (normE a, moreToks as ++ tk ")" ")" :: rest) := by
      intro f hf
      refine parseInfix_stop f hf 0 _ _ ?_
      cases as with
      | nilE => simp [moreToks, peekT, precOf]
      | consE b bs => simp [moreToks, peekT, precOf]
    have hsub := exprCont a hp.1 0 (by omega)
      (moreToks as ++ tk ")" ")" :: rest) hbndA 1 _ hstopA f' (by omega)
    show ((if (peekT (toksE a ++ (moreToks as ++ tk ")" ")" :: rest))).type =
        ")" then
        .ok (.nilE, (toksE a ++ (moreToks as ++ tk ")" ")" :: rest)).drop 1)
      else
        match parseExpr f' 0 (toksE a ++ (moreToks as ++ tk ")" ")" :: rest))
          with
        | .error e => .error e
        | .ok (e, ts1) =>
          match parseMoreArgs f' ts1 with
          | .error e => .error e
          | .ok (restA, ts2) =>
            match expectTok ")" ts2 with
            | .error e => .error e
            | .ok (_, ts3) => .ok (.consE e restA, ts3) :
        PRes ExprList) =
      .ok (normArgs (.consE a as), rest))
    rw [if_neg hne, hsub]
    show ((match parseMoreArgs f' (moreToks as ++ tk ")" ")" :: rest) with
      | .error e => .error e
      | .ok (restA, ts2) =>
        match expectTok ")" ts2 with
        | .error e => .error e
        | .ok (_, ts3) => .ok (.consE (normE a) restA, ts3) :
        PRes ExprList) =
      .ok (normArgs (.consE a as), rest))
    rw [moreCont as hp.2 rest f' (by omega)]
    simp [expectTok, tk, normArgs]

theorem moreCont (a : ExprList) (ha : plainArgs a = true) (rest : Toks) :
    ∀ fuel, szMore a ≤ fuel →
      parseMoreArgs fuel (moreToks a ++ tk ")" ")" :: rest) =
        .ok (normArgs a, tk ")" ")" :: rest) := by
  cases a with
  | nilE =>
    intro fuel hfuel
    simp only [szMore] at hfuel
    obtain ⟨f', rfl⟩ : ∃ f', fuel = f' + 1 := ⟨fuel - 1, by omega⟩
    simp only [moreToks, List.nil_append]
    simp [parseMoreArgs, peekT, tk, normArgs]
  | consE b bs =>
    have hp : plainE b = true ∧ plainArgs bs = true := by
      simp only [plainArgs, Bool.and_eq_true] at ha
      exact ha
    intro fuel hfuel
    simp only [szMore] at hfuel
    obtain ⟨f', rfl⟩ : ∃ f', fuel = f' + 1 := ⟨fuel - 1, by omega⟩
    simp only [moreToks, List.cons_append, List.append_assoc]
    have hbndB : exprBoundary (moreToks bs ++ tk ")" ")" :: rest) := by
      cases bs with
      | nilE =>
        simp only [moreToks, List.nil_append]
        exact exprBoundary_cons _ _ (by decide) (by decide) (by decide)
          (by decide) (by decide)
      | consE c cs =>
        simp only [moreToks, List.cons_append]
        exact exprBoundary_cons _ _ (by decide) (by decide) (by decide)
          (by decide) (by decide)
    have hstopB : ∀ f, 1 ≤ f →
        parseInfix f 0 (normE b) (moreToks bs ++ tk ")" ")" :: rest) =
          .ok (normE b, moreToks bs ++ tk ")" ")" :: rest) := by
      intro f hf
      refine parseInfix_stop f hf 0 _ _ ?_
      cases bs with
      | nilE => simp [moreToks, peekT, precOf]
      | consE c cs => simp [moreToks, peekT, precOf]
    have hsub := exprCont b hp.1 0 (by omega)
      (moreToks bs ++ tk ")" ")" :: rest) hbndB 1 _ hstopB f' (by omega)
    show ((if (peekT (tk "," "," :: (toksE b ++
        (moreToks bs ++ tk ")" ")" :: rest)))).type = "," then
        match parseExpr f' 0 ((tk "," "," :: (toksE b ++
            (moreToks bs ++ tk ")" ")" :: rest))).drop 1) with
        | .error e => .error e
        | .ok (e, ts1) =>
          match parseMoreArgs f' ts1 with
          | .error e => .error e
          | .ok (restB, ts2) => .ok (.consE e restB, ts2)
      else .ok (.nilE, tk "," "," :: (toksE b ++
        (moreToks bs ++ tk ")" ")" :: rest))) : PRes ExprList) =
      .ok (normArgs (.consE b bs), tk ")" ")" :: rest))
    rw [if_pos (show (peekT (tk "," "," :: (toksE b ++
      (moreToks bs ++ tk ")" ")" :: rest)))).type = "," from rfl)]
    rw [show (tk "," "," :: (toksE b ++
        (moreToks bs ++ tk ")" ")" :: rest))).drop 1 =
      toksE b ++ (moreToks bs ++ tk ")" ")" :: rest) from rfl]
    rw [hsub]
    show ((match parseMoreArgs f' (moreToks bs ++ tk ")" ")" :: rest) with
      | .error e => .error e
      | .ok (restB, ts2) => .ok (.consE (normE b) restB, ts2) :
        PRes ExprList) =
      .ok (normArgs (.consE b bs), tk ")" ")" :: rest))
    rw [moreCont bs hp.2 rest f' (by omega)]
    simp [normArgs]

end

/-- The full re-parse of a printed fragment expression through the
façade's parser entry point: it succeeds with the one-statement
normalized program. -/
theorem parseTop (e : Expr) (he : plainE e = true) :
    Parser.parseRip (printExpr e) =
      .ok (.consS (.exprS 0 (normE e)) .nilS) := by
  obtain ⟨h, t, hht, hok, hl⟩ := toksE_head e he
  obtain ⟨hsemi, heof, hend, hclass, hmodule, hdef, _⟩ :=
    headOK_facts h.type hok
  have hsz := szE_le e he
  have hlex := lexTop e he
  show parseProgramT (8 * (tokenize (printExpr e)).length + 64)
    (tokenize (printExpr e)) = _
  rw [hlex, show (toksE e ++ [eofTok 0]).length = (toksE e).length + 1 from
    by simp]
  have hcons : toksE e ++ [eofTok 0] = h :: (t ++ [eofTok 0]) := by
    rw [hht]
    rfl
  have hskip : skipSemis (toksE e ++ [eofTok 0]) = toksE e ++ [eofTok 0] := by
    rw [hcons]
    simp [skipSemis, hsemi]
  have hpk : peekT (toksE e ++ [eofTok 0]) = h := by
    rw [hcons]
    rfl
  have hbeof : exprBoundary [eofTok 0] :=
    exprBoundary_cons _ _ (by decide) (by decide) (by decide) (by decide)
      (by decide)
  have hstopE : ∀ f, 1 ≤ f → parseInfix f 0 (normE e) [eofTok 0] =
      .ok (normE e, [eofTok 0]) :=
    fun f hf => parseInfix_stop f hf 0 _ _ (by simp [peekT, eofTok, precOf])
  obtain ⟨F1, hF1⟩ : ∃ F1, 8 * ((toksE e).length + 1) + 64 = F1 + 1 :=
    ⟨8 * ((toksE e).length + 1) + 63, by omega⟩
  obtain ⟨F2, hF2⟩ : ∃ F2, F1 = F2 + 1 := ⟨F1 - 1, by omega⟩
  have hstmt : parseStmt F1 (toksE e ++ [eofTok 0]) =
      .ok (.exprS 0 (normE e), [eofTok 0]) := by
    rw [hF2, hcons]
    simp only [parseStmt]
    rw [if_neg hclass, if_neg hmodule, if_neg hdef, ← hcons]
    rw [exprCont e he 0 (by omega) [eofTok 0] hbeof 1
      (.ok (normE e, [eofTok 0])) hstopE F2 (by omega)]
    rw [hl]
  have htail : parseStmts F1 [eofTok 0] = .ok (.nilS, [eofTok 0]) := by
    rw [hF2]
    simp [parseStmts, skipSemis, peekT, eofTok]
  have hstmts : parseStmts (F1 + 1) (toksE e ++ [eofTok 0]) =
      .ok (.consS (.exprS 0 (normE e)) .nilS, [eofTok 0]) := by
    simp only [parseStmts]
    rw [hskip, hpk, if_neg (by simp [heof, hend]), hstmt]
    show ((match parseStmts F1 [eofTok 0] with
      | .error e => .error e
      | .ok (restS, ts2) =>
        .ok (.consS (.exprS 0 (normE e)) restS, ts2) :
      Except PErr (StmtList × Toks))) =
      .ok (.consS (.exprS 0 (normE e)) .nilS, [eofTok 0])
    rw [htail]
  rw [hF1]
  simp only [parseProgramT]
  rw [hstmts]
  rfl

end Goby.RoundTrip

namespace Goby.Claims

open Goby
open Goby.Lexer (Token tokenize eofTok)
open Goby.GoMap

/-- C1.  Argument validation is uniform across the four introspection
operations: any arity other than exactly one argument yields the
argument-arity `ArgumentError`, and a single non-string argument yields
the `TypeError` naming the expected kind `String` and the argument's
actual kind. -/
theorem guards_uniform (line : Int) :
    (∀ args : List Value, args.length ≠ 1 →
       ripperInstruction line args = .error (arityErr line args.length) ∧
       ripperLex line args = .error (arityErr line args.length) ∧
       ripperParse line args = .error (arityErr line args.length) ∧
       ripperToken line args = .error (arityErr line args.length)) ∧
    (∀ v : Value, isStringV v = false →
       ripperInstruction line [v] =
         .error (wrongArgTypeErr line "String" v.className) ∧
       ripperLex line [v] = .error (wrongArgTypeErr line "String" v.className) ∧
       ripperParse line [v] =
         .error (wrongArgTypeErr line "String" v.className) ∧
       ripperToken line [v] =
         .error (wrongArgTypeErr line "String" v.className)) ∧
    (arityErr line 0).errClass = "ArgumentError" ∧
    (∀ e a, (wrongArgTypeErr line e a).errClass = "TypeError" ∧
      (wrongArgTypeErr line e a).message =
        "Expect argument to be " ++ e ++ ". got: " ++ a) := by
  refine ⟨?_, ?_, rfl, fun e a => ⟨rfl, rfl⟩⟩
  · intro args hlen
    match args with
    | [] => exact ⟨rfl, rfl, rfl, rfl⟩
    | [a] => simp at hlen
    | a :: b :: rest => cases a <;> exact ⟨rfl, rfl, rfl, rfl⟩
  · intro v hv
    cases v <;> simp_all [ripperInstruction, ripperLex, ripperParse,
      ripperToken, isStringV]

/-- Witness for C1 at concrete inputs: zero arguments, and the
non-string argument `42`. -/
theorem guards_uniform_witness :
    ripperLex 0 [] = .error (arityErr 0 0) ∧
    ripperParse 0 [.vInt 42] = .error (wrongArgTypeErr 0 "String" "Integer") := by
  have h := guards_uniform 0
  refine ⟨(h.1 [] (by decide)).2.1, ?_⟩
  have h2 := (h.2.1 (Value.vInt 42) rfl).2.2.1
  simpa [Value.className] using h2

/-- C8.  `Ripper.new` always fails with the distinct
unsupported-operation error, for any receiver and any arguments. -/
theorem ripper_new_unsupported (line : Int) (recvName : String)
    (args : List Value) :
    ripperNew line recvName args =
      .error ⟨"UnsupportedMethodError", line,
              "Unsupported Method #new for " ++ recvName⟩ := rfl

/-- C10.  `GoMap#get` with a string key returns null (not an error) when
the key is absent, and the stored value — bridged when it is not already
a guest object — when the key is present. -/
theorem gomap_get_absent_null (line : Int) (data : List (String × GoVal))
    (k : String) :
    (data.lookup k = none → goMapGet line data [.vString k] = .ok .vNull) ∧
    (∀ gv, data.lookup k = some gv →
       goMapGet line data [.vString k] = .ok (bridge gv)) := by
  constructor
  · intro h; simp [goMapGet, h]
  · intro gv h; simp [goMapGet, h]

/-- Witness for C10: a one-entry map, looked up at an absent and at a
present key. -/
theorem gomap_get_witness :
    goMapGet 0 [("a", GoVal.obj (.vInt 5))] [.vString "b"] = .ok .vNull ∧
    goMapGet 0 [("a", GoVal.obj (.vInt 5))] [.vString "a"] = .ok (.vInt 5) := by
  have h1 := gomap_get_absent_null 0 [("a", GoVal.obj (.vInt 5))] "b"
  have h2 := gomap_get_absent_null 0 [("a", GoVal.obj (.vInt 5))] "a"
  exact ⟨h1.1 rfl, h2.2 (GoVal.obj (.vInt 5)) rfl⟩

/-- C2.  For every string (and any source line), `Ripper.lex` succeeds —
it never returns an error — with an ordered list of
`[line, kind, literal]` triples whose last row is the `on_eof` row with
an empty literal. -/
theorem lex_total_eof (line : Int) (s : String) :
    ∃ rows lastLine,
      ripperLex line [.vString s] = .ok (.vArray (rows ++
        [Value.vArray [.vInt lastLine, .vString "on_eof", .vString ""]])) ∧
      ∀ r ∈ rows, ∃ ln kind lit,
        r = Value.vArray [.vInt ln, .vString kind, .vString lit] := by
  obtain ⟨pre, l, hsplit, hne⟩ := Lexer.tokenize_split s
  refine ⟨pre.map (fun t =>
      Value.vArray [.vInt (t.line : Int), .vString (convertLex t.type),
        .vString t.literal]), (l : Int), ?_, ?_⟩
  · have : ripperLex line [.vString s] = .ok (.vArray (lexRows (tokenize s))) := rfl
    rw [this, hsplit, lexRows_append_eof l pre hne]
    rfl
  · intro r hr
    obtain ⟨t, _, rfl⟩ := List.mem_map.mp hr
    exact ⟨(t.line : Int), convertLex t.type, t.literal, rfl⟩

/-- C7 counterexample: the spec's concrete scenario for
`tokenize("class Bar\nend")` claims 1-based lines with the `eof` row on
line 3; the code's lines are 0-based with `eof` on the last content
line, so the claimed output is not the produced one. -/
theorem lex_example_cex :
    ripperLex 0 [.vString "class Bar\nend"] ≠ .ok (.vArray [
      .vArray [.vInt 1, .vString "on_class", .vString "class"],
      .vArray [.vInt 1, .vString "on_constant", .vString "Bar"],
      .vArray [.vInt 2, .vString "on_end", .vString "end"],
      .vArray [.vInt 3, .vString "on_eof", .vString ""]]) := by
  intro h
  rw [show ripperLex 0 [.vString "class Bar\nend"] = .ok (.vArray [
      .vArray [.vInt 0, .vString "on_class", .vString "class"],
      .vArray [.vInt 0, .vString "on_constant", .vString "Bar"],
      .vArray [.vInt 1, .vString "on_end", .vString "end"],
      .vArray [.vInt 1, .vString "on_eof", .vString ""]]) from rfl] at h
  simp at h

/-- C7 amended.  `convertLex` maps the `+` operator to `on_plus` and the
`class` keyword kind to `on_class`, and
`tokenize("class Bar\nend")` yields exactly the four rows
`[(0,"on_class","class"),(0,"on_constant","Bar"),(1,"on_end","end"),
(1,"on_eof","")]` — 0-based lines, with the `eof` row carrying the last
line. -/
theorem lex_example_amended :
    convertLex "+" = "on_plus" ∧ convertLex "CLASS" = "on_class" ∧
    ripperLex 0 [.vString "class Bar\nend"] = .ok (.vArray [
      .vArray [.vInt 0, .vString "on_class", .vString "class"],
      .vArray [.vInt 0, .vString "on_constant", .vString "Bar"],
      .vArray [.vInt 1, .vString "on_end", .vString "end"],
      .vArray [.vInt 1, .vString "on_eof", .vString ""]]) :=
  ⟨rfl, rfl, rfl⟩

/-- C3.  `Ripper.instruction` returns the serialized Instruction Sets or
the fixed invalid-code failure; the failure occurs exactly when parsing
fails — lowering introduces no error of its own (a parse success always
serializes). -/
theorem instruction_failure_iff_parse_failure (line : Int) (s : String) :
    ((∃ e, Parser.parseRip s = .error e) →
       ripperInstruction line [.vString s] = .error (invalidCodeErr line)) ∧
    (∀ prog, Parser.parseRip s = .ok prog →
       ripperInstruction line [.vString s] =
         .ok (convertToTuple (Compiler.compileProgram prog))) ∧
    (∀ e0, ripperInstruction line [.vString s] = .error e0 →
       ∃ e, Parser.parseRip s = .error e) := by
  rcases h : Parser.parseRip s with e | prog
  · refine ⟨fun _ => ?_, fun prog hp => ?_, fun e0 _ => ⟨e, rfl⟩⟩
    · simp [ripperInstruction, Compiler.compileToInstructions, h]
    · cases hp
  · refine ⟨fun ⟨e, he⟩ => ?_, fun prog' hp => ?_, fun e0 h0 => ?_⟩
    · cases he
    · cases hp
      simp [ripperInstruction, Compiler.compileToInstructions, h]
    · have hok : ripperInstruction line [.vString s] =
          .ok (convertToTuple (Compiler.compileProgram prog)) := by
        simp [ripperInstruction, Compiler.compileToInstructions, h]
      rw [hok] at h0; cases h0

/-- Witness for C3: a parse failure (`"+"`) becomes the invalid-code
failure, and a parse success (`"a = 1"`) serializes its compilation. -/
theorem instruction_failure_witness :
    ripperInstruction 0 [.vString "+"] = .error (invalidCodeErr 0) ∧
    ripperInstruction 0 [.vString "a = 1"] = .ok (convertToTuple
      (Compiler.compileProgram (.consS
        (.exprS 0 (.assignE (.identE "a") (.intLit "1"))) .nilS))) :=
  ⟨(instruction_failure_iff_parse_failure 0 "+").1 ⟨⟨0, "+", "unexpected token"⟩, rfl⟩,
   (instruction_failure_iff_parse_failure 0 "a = 1").2.1 _ rfl⟩

/-- C4.  `Ripper.parse` returns the canonical rendering of the parsed
program exactly when the grammar accepts the source, and the fixed
invalid-code failure exactly when the parser rejects it; the failure
value carries nothing of any partial parse. -/
theorem parse_result_iff (line : Int) (s : String) :
    ((∃ e, Parser.parseRip s = .error e) →
       ripperParse line [.vString s] = .error (invalidCodeErr line)) ∧
    (∀ prog, Parser.parseRip s = .ok prog →
       ripperParse line [.vString s] = .ok (.vString (Ast.printProgram prog))) ∧
    (∀ e0, ripperParse line [.vString s] = .error e0 →
       ∃ e, Parser.parseRip s = .error e) := by
  rcases h : Parser.parseRip s with e | prog
  · refine ⟨fun _ => ?_, fun prog hp => ?_, fun e0 _ => ⟨e, rfl⟩⟩
    · simp [ripperParse, h]
    · cases hp
  · refine ⟨fun ⟨e, he⟩ => ?_, fun prog' hp => ?_, fun e0 h0 => ?_⟩
    · cases he
    · cases hp
      simp [ripperParse, h]
    · have hok : ripperParse line [.vString s] =
          .ok (.vString (Ast.printProgram prog)) := by simp [ripperParse, h]
      rw [hok] at h0; cases h0

/-- Witness for C4: `"+"` is rejected with the invalid-code failure;
`"class Foo\nend"` parses and renders canonically. -/
theorem parse_result_witness :
    ripperParse 0 [.vString "+"] = .error (invalidCodeErr 0) ∧
    ripperParse 0 [.vString "class Foo\nend"] =
      .ok (.vString "class Foo \x7b\n\n\x7d") :=
  ⟨(parse_result_iff 0 "+").1 ⟨⟨0, "+", "unexpected token"⟩, rfl⟩,
   (parse_result_iff 0 "class Foo\nend").2.1
     (.consS (.classS 0 "Foo" none .nilS) .nilS) rfl⟩

/-- The anchor-presence property as the claim states it: in the
serialized output of a successful compile, the `anchor` field appears
only on instructions that actually carry a resolved anchor (control-flow
instructions). -/
def anchorOnlyOnControlFlow : Prop :=
  ∀ (s : String) (sets : List Bytecode.ISet),
    Compiler.compileToInstructions s = .ok sets →
    ∀ st ∈ sets, ∀ ins ∈ st.instructions,
      (hget (serializeIns ins) "anchor").isSome = true →
      ins.anchor.isSome = true

/-- C5 counterexample: compiling `"1"` produces only anchor-free
instructions, yet every serialized instruction record carries an
`anchor` key — `convertToTuple` discards the `AnchorLine()` error and
stores the zero value unconditionally. -/
theorem anchor_presence_cex : ¬ anchorOnlyOnControlFlow := by
  intro h
  have h2 := h "1"
    (Compiler.compileProgram (.consS (.exprS 0 (.intLit "1")) .nilS)) rfl
  rw [show Compiler.compileProgram (.consS (.exprS 0 (.intLit "1")) .nilS) =
      [⟨"ProgramStart", "Program", none,
        [⟨"putobject", ["1"], 0, 0, none, none⟩,
         ⟨"pop", [], 1, 0, none, none⟩,
         ⟨"leave", [], 2, 0, none, none⟩]⟩] from rfl] at h2
  have h3 := h2 ⟨"ProgramStart", "Program", none,
      [⟨"putobject", ["1"], 0, 0, none, none⟩,
       ⟨"pop", [], 1, 0, none, none⟩,
       ⟨"leave", [], 2, 0, none, none⟩]⟩ (by simp)
    ⟨"putobject", ["1"], 0, 0, none, none⟩ (by simp)
  have h4 := h3 (by rw [serializeIns_anchor]; rfl)
  simp at h4

/-- C5 amended.  In the serialized output, every instruction record —
control-flow or not — carries an `anchor` field: it holds the resolved
anchor index when the instruction has one, and the error-discarded zero
value otherwise. -/
theorem anchor_always_serialized (sets : List Bytecode.ISet)
    (st : Bytecode.ISet) (hs : st ∈ sets) (ins : Bytecode.Instr)
    (hi : ins ∈ st.instructions) :
    Value.vHash (serializeSet st) ∈ tupleElems (convertToTuple sets) ∧
    hget (serializeSet st) "instructions" =
      some (.vArray (st.instructions.map (fun i => .vHash (serializeIns i)))) ∧
    hget (serializeIns ins) "anchor" =
      some (.vInt (Bytecode.anchorOrZero ins)) ∧
    (∀ a, ins.anchor = some a → Bytecode.anchorOrZero ins = (a : Int)) ∧
    (ins.anchor = none → Bytecode.anchorOrZero ins = 0) := by
  refine ⟨mem_convertToTuple sets st hs, serializeSet_instructions st,
    serializeIns_anchor ins, ?_, ?_⟩
  · intro a ha
    simp [Bytecode.anchorOrZero, Bytecode.anchorLine, ha]
  · intro ha
    simp [Bytecode.anchorOrZero, Bytecode.anchorLine, ha]

/-- Witness for C5 (amended) on a one-set, one-instruction input. -/
theorem anchor_always_serialized_witness :
    hget (serializeIns ⟨"putobject", ["1"], 0, 0, none, none⟩) "anchor" =
      some (.vInt 0) := by
  have h := anchor_always_serialized
    [⟨"ProgramStart", "Program", none,
      [⟨"putobject", ["1"], 0, 0, none, none⟩]⟩]
    ⟨"ProgramStart", "Program", none,
      [⟨"putobject", ["1"], 0, 0, none, none⟩]⟩ (by simp)
    ⟨"putobject", ["1"], 0, 0, none, none⟩ (by simp)
  have h3 := h.2.2.1
  rw [h3]
  rfl

/-- C6.  For a successfully compiled source, the serialized top-level
`Program` set carries no `arg_types` field at all, every other set is a
method or block scope whose `arg_types` field is present, presence of
the field is equivalent to being a parameter-accepting scope, and every
serialized ArgSet holds parallel `names`/`types` arrays of equal
length. -/
theorem argset_only_param_scopes (line : Int) (s : String)
    (prog : Ast.StmtList) (hp : Parser.parseRip s = .ok prog) :
    ripperInstruction line [.vString s] =
      .ok (convertToTuple (Compiler.compileProgram prog)) ∧
    (∃ pSet tail, Compiler.compileProgram prog = pSet :: tail ∧
       pSet.isType = "Program" ∧ pSet.argTypes = none ∧
       hget (serializeSet pSet) "arg_types" = none ∧
       ∀ st ∈ tail, (st.isType = "Def" ∨ st.isType = "Block") ∧
         ∃ a, st.argTypes = some a ∧
           hget (serializeSet st) "arg_types" = some (getArgNameType a)) ∧
    (∀ st ∈ Compiler.compileProgram prog,
       ((hget (serializeSet st) "arg_types").isSome = true ↔
         (st.isType = "Def" ∨ st.isType = "Block"))) ∧
    (∀ a : Bytecode.ArgSetM,
       hashGet (getArgNameType a) "names" =
         some (.vArray ((Bytecode.argNames a).map Value.vString)) ∧
       hashGet (getArgNameType a) "types" =
         some (.vArray ((Bytecode.argTypesOf a).map Value.vInt)) ∧
       ((Bytecode.argNames a).map Value.vString).length =
         ((Bytecode.argTypesOf a).map Value.vInt).length) := by
  obtain ⟨tail, heq, htail⟩ := Compiler.compileProgram_shape prog
  refine ⟨?_, ?_, ?_, fun a => ⟨getArgNameType_names a, getArgNameType_types a,
    argNames_length_eq_argTypes a⟩⟩
  · simp [ripperInstruction, Compiler.compileToInstructions, hp]
  · refine ⟨_, tail, heq, rfl, rfl, ?_, ?_⟩
    · rw [serializeSet_argTypes]
      rfl
    · intro st hst
      obtain ⟨hty, hsome⟩ := htail st hst
      obtain ⟨a, ha⟩ := Option.isSome_iff_exists.mp hsome
      exact ⟨hty, a, ha, by rw [serializeSet_argTypes, ha]; rfl⟩
  · intro st hst
    rw [heq] at hst
    rcases List.mem_cons.mp hst with rfl | hst'
    · rw [serializeSet_argTypes]
      show (Option.map getArgNameType none).isSome = true ↔ _
      simp [Compiler.finalizeSet]
    · obtain ⟨hty, hsome⟩ := htail st hst'
      obtain ⟨a, ha⟩ := Option.isSome_iff_exists.mp hsome
      rw [serializeSet_argTypes, ha]
      simp [hty]

/-- Witness for C6 at a source with a method definition. -/
theorem argset_only_param_scopes_witness :
    ripperInstruction 0 [.vString "def foo(x)\n1\nend"] =
      .ok (convertToTuple (Compiler.compileProgram (.consS
        (.defS 0 "foo" false ["x"]
          (.consS (.exprS 1 (.intLit "1")) .nilS)) .nilS))) :=
  (argset_only_param_scopes 0 "def foo(x)\n1\nend"
    (.consS (.defS 0 "foo" false ["x"]
      (.consS (.exprS 1 (.intLit "1")) .nilS)) .nilS) rfl).1

/-- The idempotent-printing property as the spec states it: for every
source the parser accepts, the canonical form re-parses and re-prints to
the same text. -/
def printIdem : Prop :=
  ∀ (s : String) (p1 : Ast.StmtList), Parser.parseRip s = .ok p1 →
    ∃ p2, Parser.parseRip (Ast.printProgram p1) = .ok p2 ∧
      Ast.printProgram p2 = Ast.printProgram p1

/-- The weakening of the idempotent-printing property to only those
sources whose canonical form happens to re-parse: even then the second
print must reproduce the canonical text. -/
def printIdemOnReparse : Prop :=
  ∀ (s : String) (p1 p2 : Ast.StmtList), Parser.parseRip s = .ok p1 →
    Parser.parseRip (Ast.printProgram p1) = .ok p2 →
      Ast.printProgram p2 = Ast.printProgram p1

/-- C9 counterexample.  First, `"class Foo\nend"` parses, but its
canonical form renders the class body as a brace block, which the
grammar rejects — the re-parse fails outright.  Second, restricting the
claim to sources whose canonical form does re-parse is still not
enough: `"a\n(1 + 2)"` parses to two statements whose canonical
rendering `"a(1 + 2)"` (statements are concatenated with no separator)
re-parses as a single implicit-receiver call and re-prints as
`"self.a((1 + 2))"`. -/
theorem print_idem_cex : ¬ printIdem ∧ ¬ printIdemOnReparse := by
  constructor
  · intro h
    obtain ⟨p2, h2, _⟩ :=
      h "class Foo\nend" (.consS (.classS 0 "Foo" none .nilS) .nilS) rfl
    rw [show Ast.printProgram (.consS (.classS 0 "Foo" none .nilS) .nilS) =
        "class Foo \x7b\n\n\x7d" from rfl] at h2
    rw [show Parser.parseRip "class Foo \x7b\n\n\x7d" =
        .error ⟨0, "\x7b", "unexpected token"⟩ from rfl] at h2
    cases h2
  · intro h
    have h2 := h "a\n(1 + 2)"
      (.consS (.exprS 0 (.identE "a"))
        (.consS (.exprS 1 (.infixE "+" (.intLit "1") (.intLit "2"))) .nilS))
      (.consS (.exprS 0 (.callE .implicitSelf "a"
        (.consE (.infixE "+" (.intLit "1") (.intLit "2")) .nilE) .noneB))
        .nilS)
      rfl rfl
    rw [show Ast.printProgram (.consS (.exprS 0 (.callE .implicitSelf "a"
        (.consE (.infixE "+" (.intLit "1") (.intLit "2")) .nilE) .noneB))
        .nilS) = "self.a((1 + 2))" from rfl,
      show Ast.printProgram (.consS (.exprS 0 (.identE "a"))
        (.consS (.exprS 1 (.infixE "+" (.intLit "1") (.intLit "2"))) .nilS)) =
        "a(1 + 2)" from rfl] at h2
    exact absurd h2 (by decide)

/-- C9 amended.  Printing is idempotent under re-parsing on the
printable fragment: whenever a valid source parses to a single
expression statement built from integer/boolean/nil literals,
identifiers, (qualified) constants, `self`, `get_block`, `yield`, unary
`!`/`-`, the binary operators, and receiver calls without blocks, the
canonical text re-parses successfully — to the program with every
implicit call receiver made an explicit `self` — and that program
prints back to exactly the same canonical text, making it a parse-print
fixed point.  The unrestricted claim fails because class, module and
def bodies print as brace blocks the grammar rejects, and even
re-parseable canonical forms can shift (statement concatenation,
implicit-receiver rendering), as the counterexample shows. -/
theorem print_idem_amended (s : String) (p1 : Ast.StmtList) (line : Nat)
    (e : Ast.Expr)
    (h1 : Parser.parseRip s = .ok p1)
    (h2 : p1 = .consS (.exprS line e) .nilS)
    (h3 : RoundTrip.plainE e = true) :
    ∃ p2, Parser.parseRip (Ast.printProgram p1) = .ok p2 ∧
      Ast.printProgram p2 = Ast.printProgram p1 := by
  subst h2
  refine ⟨.consS (.exprS 0 (RoundTrip.normE e)) .nilS, ?_, ?_⟩
  · have hp : Ast.printProgram (.consS (.exprS line e) .nilS) =
        Ast.printExpr e := by
      show Ast.printStmts _ = _
      simp [Ast.printStmts, Ast.printStmt, RoundTrip.strAppendEmpty]
    rw [hp, RoundTrip.parseTop e h3]
  · show Ast.printStmts _ = Ast.printStmts _
    simp [Ast.printStmts, Ast.printStmt, RoundTrip.printNormE e]

/-- Witness for C9 (amended) at `"foo(1)"`: the canonical form
`"self.foo(1)"` re-parses — to the structurally different program with
the explicit `self` receiver — and re-prints to the same text. -/
theorem print_idem_witness :
    ∃ p2, Parser.parseRip (Ast.printProgram (.consS (.exprS 0
        (.callE .implicitSelf "foo" (.consE (.intLit "1") .nilE) .noneB))
        .nilS)) = .ok p2 ∧
      Ast.printProgram p2 = Ast.printProgram (.consS (.exprS 0
        (.callE .implicitSelf "foo" (.consE (.intLit "1") .nilE) .noneB))
        .nilS) :=
  print_idem_amended "foo(1)"
    (.consS (.exprS 0 (.callE .implicitSelf "foo" (.consE (.intLit "1")
      .nilE) .noneB)) .nilS) 0
    (.callE .implicitSelf "foo" (.consE (.intLit "1") .nilE) .noneB)
    (by rfl) rfl (by rfl)

end Goby.Claims
